import Mathlib

/-!
Verification of the parallel system scheduler of the `bevy` fork
(crates/bevy_ecs): access tracking (`core/access.rs`), the schedule stage
(`schedule/stage.rs`), the topological sort helper (`schedule/mod.rs`) and
the parallel stage executor (`schedule/stage_executor_parallel.rs`),
shallowly embedded in Lean.

Modelling conventions:
* Rust `HashSet` fields become `Finset`; `FixedBitSet` becomes `Finset ℕ`
  (the set of set bits); bitset capacity is immaterial to the operations
  used (`is_disjoint`, `union_with`, `count_ones(..) == 0`).
* Fallible code (`panic!`, `unwrap`) returns `Except String`.
* Code that loops over hash-map/hash-set iteration order is modelled with
  an explicit list order.
-/

set_option linter.unusedSectionVars false

namespace Bevy

/-! ## `core/access.rs`: `TypeAccess` -/

/-- `TypeAccess<T>`: read/write permission sets over a type universe. -/
structure TypeAccess (T : Type) where
  reads_all : Bool
  reads_and_writes : Finset T
  writes : Finset T
deriving DecidableEq

variable {T : Type} [DecidableEq T]

/-- `TypeAccess::default()`. -/
def TypeAccess.default : TypeAccess T :=
  { reads_all := false, reads_and_writes := ∅, writes := ∅ }

/-- `TypeAccess::add_read`. -/
def TypeAccess.add_read (a : TypeAccess T) (ty : T) : TypeAccess T :=
  { a with reads_and_writes := insert ty a.reads_and_writes }

/-- `TypeAccess::add_write`. -/
def TypeAccess.add_write (a : TypeAccess T) (ty : T) : TypeAccess T :=
  { a with reads_and_writes := insert ty a.reads_and_writes,
           writes := insert ty a.writes }

/-- `TypeAccess::read_all`. -/
def TypeAccess.read_all (a : TypeAccess T) : TypeAccess T :=
  { a with reads_all := true }

/-- `TypeAccess::clear`. -/
def TypeAccess.clear (_a : TypeAccess T) : TypeAccess T :=
  { reads_all := false, reads_and_writes := ∅, writes := ∅ }

/-- `TypeAccess::extend`. -/
def TypeAccess.extend (a other : TypeAccess T) : TypeAccess T :=
  { reads_all := a.reads_all || other.reads_all,
    reads_and_writes := a.reads_and_writes ∪ other.reads_and_writes,
    writes := a.writes ∪ other.writes }

/-- `TypeAccess::new(reads, writes)`: starts from default, adds all writes,
then all reads. -/
def TypeAccess.new (reads writes : List T) : TypeAccess T :=
  (reads.foldl TypeAccess.add_read
    (writes.foldl TypeAccess.add_write TypeAccess.default))

/-- `TypeAccess::is_compatible`. -/
def TypeAccess.is_compatible (a other : TypeAccess T) : Bool :=
  if a.reads_all then
    other.writes = ∅
  else if other.reads_all then
    a.writes = ∅
  else
    a.writes ∩ other.reads_and_writes = ∅ ∧
      a.reads_and_writes ∩ other.writes = ∅

/-! ## `core/access.rs`: `CondensedTypeAccess` -/

/-- `CondensedTypeAccess`: the same data projected onto a dense index
universe; the two `FixedBitSet`s are modelled as their sets of set bits. -/
structure CondensedTypeAccess where
  reads_all : Bool
  reads_and_writes : Finset ℕ
  writes : Finset ℕ
deriving DecidableEq

/-- `CondensedTypeAccess::default()`. -/
def CondensedTypeAccess.default : CondensedTypeAccess :=
  { reads_all := false, reads_and_writes := ∅, writes := ∅ }

/-- `CondensedTypeAccess::clear`. -/
def CondensedTypeAccess.clear (_a : CondensedTypeAccess) : CondensedTypeAccess :=
  CondensedTypeAccess.default

/-- `CondensedTypeAccess::extend`. -/
def CondensedTypeAccess.extend (a other : CondensedTypeAccess) : CondensedTypeAccess :=
  { reads_all := a.reads_all || other.reads_all,
    reads_and_writes := a.reads_and_writes ∪ other.reads_and_writes,
    writes := a.writes ∪ other.writes }

/-- `CondensedTypeAccess::is_compatible`; `0 == other.writes.count_ones(..)`
is emptiness of the bitset, `is_disjoint` is set disjointness. -/
def CondensedTypeAccess.is_compatible (a other : CondensedTypeAccess) : Bool :=
  if a.reads_all then
    other.writes = ∅
  else if other.reads_all then
    a.writes = ∅
  else
    a.writes ∩ other.reads_and_writes = ∅ ∧
      a.reads_and_writes ∩ other.writes = ∅

/-- The set of indices of `all` whose entry lies in `s`: one loop of
`TypeAccess::condense` (`for (index, access_type) in all.iter().enumerate()
{ if s.contains(access_type) { bitset.insert(index) } }`). -/
def condenseSet (s : Finset T) (all : List T) : Finset ℕ :=
  ((all.enum.filter (fun p => decide (p.2 ∈ s))).map Prod.fst).toFinset

/-- `TypeAccess::condense`.  With `reads_all` set only the writes are
condensed; otherwise an index enters `reads_and_writes` when the entry is
written (first branch) or read (second branch). -/
def TypeAccess.condense (a : TypeAccess T) (all : List T) : CondensedTypeAccess :=
  if a.reads_all then
    { reads_all := true, reads_and_writes := ∅, writes := condenseSet a.writes all }
  else
    { reads_all := false,
      reads_and_writes := condenseSet a.writes all ∪ condenseSet a.reads_and_writes all,
      writes := condenseSet a.writes all }

/-! ### Basic lemmas about condensation -/

theorem mem_condenseSet {s : Finset T} {all : List T} {i : ℕ} :
    i ∈ condenseSet s all ↔ ∃ x, all[i]? = some x ∧ x ∈ s := by
  simp only [condenseSet, List.mem_toFinset, List.mem_map, List.mem_filter,
    decide_eq_true_eq]
  constructor
  · rintro ⟨⟨j, x⟩, ⟨hm, hx⟩, rfl⟩
    exact ⟨x, List.mem_enum_iff_getElem?.mp hm, hx⟩
  · rintro ⟨x, hm, hx⟩
    exact ⟨(i, x), ⟨List.mem_enum_iff_getElem?.mpr hm, hx⟩, rfl⟩

theorem condenseSet_empty_iff {s : Finset T} {all : List T}
    (cover : ∀ x ∈ s, x ∈ all) : condenseSet s all = ∅ ↔ s = ∅ := by
  constructor
  · intro h
    by_contra hs
    obtain ⟨x, hx⟩ := Finset.nonempty_iff_ne_empty.mpr hs
    obtain ⟨n, hn⟩ := List.mem_iff_get.mp (cover x hx)
    have hmem : (n : ℕ) ∈ condenseSet s all :=
      mem_condenseSet.mpr ⟨x, by simp [List.getElem?_eq_getElem n.isLt, ← hn, List.get_eq_getElem], hx⟩
    simp [h] at hmem
  · rintro rfl
    ext i
    simp [mem_condenseSet]

theorem condenseSet_inter (s t : Finset T) (all : List T) :
    condenseSet s all ∩ condenseSet t all = condenseSet (s ∩ t) all := by
  ext i
  simp only [Finset.mem_inter, mem_condenseSet]
  constructor
  · rintro ⟨⟨x, hx, hxs⟩, ⟨y, hy, hyt⟩⟩
    have hxy : x = y := by
      have := hx.symm.trans hy
      exact Option.some.inj this
    exact ⟨x, hx, hxs, hxy ▸ hyt⟩
  · rintro ⟨x, hx, hs, ht⟩
    exact ⟨⟨x, hx, hs⟩, ⟨x, hx, ht⟩⟩

/-! ### Well-formedness: `writes ⊆ reads_and_writes` -/

/-- The subset invariant of `TypeAccess`. -/
def TypeAccess.WF (a : TypeAccess T) : Prop :=
  a.writes ⊆ a.reads_and_writes

/-- The subset invariant in condensed (bitset) form. -/
def CondensedTypeAccess.WF (a : CondensedTypeAccess) : Prop :=
  a.writes ⊆ a.reads_and_writes

/-- `TypeAccess` values constructible through the public operations of
`core/access.rs`. -/
inductive TypeAccess.Built : TypeAccess T → Prop
  | default : TypeAccess.Built TypeAccess.default
  | new (reads writes : List T) : TypeAccess.Built (TypeAccess.new reads writes)
  | add_read {a : TypeAccess T} (ty : T) :
      TypeAccess.Built a → TypeAccess.Built (a.add_read ty)
  | add_write {a : TypeAccess T} (ty : T) :
      TypeAccess.Built a → TypeAccess.Built (a.add_write ty)
  | read_all {a : TypeAccess T} :
      TypeAccess.Built a → TypeAccess.Built a.read_all
  | clear {a : TypeAccess T} :
      TypeAccess.Built a → TypeAccess.Built a.clear
  | extend {a b : TypeAccess T} :
      TypeAccess.Built a → TypeAccess.Built b → TypeAccess.Built (a.extend b)

theorem TypeAccess.WF.default : (TypeAccess.default : TypeAccess T).WF := by
  simp [TypeAccess.WF, TypeAccess.default]

theorem TypeAccess.WF.add_read {a : TypeAccess T} (h : a.WF) (ty : T) :
    (a.add_read ty).WF := by
  intro x hx
  exact Finset.mem_insert_of_mem (h hx)

theorem TypeAccess.WF.add_write {a : TypeAccess T} (h : a.WF) (ty : T) :
    (a.add_write ty).WF := by
  intro x hx
  rcases Finset.mem_insert.mp hx with hx | hx
  · exact hx ▸ Finset.mem_insert_self ..
  · exact Finset.mem_insert_of_mem (h hx)

theorem TypeAccess.WF.extend {a b : TypeAccess T} (ha : a.WF) (hb : b.WF) :
    (a.extend b).WF := by
  intro x hx
  rcases Finset.mem_union.mp hx with hx | hx
  · exact Finset.mem_union_left _ (ha hx)
  · exact Finset.mem_union_right _ (hb hx)

theorem TypeAccess.WF.foldl_add_write {a : TypeAccess T} (h : a.WF) :
    ∀ l : List T, (l.foldl TypeAccess.add_write a).WF := by
  intro l
  induction l generalizing a with
  | nil => exact h
  | cons x xs ih => exact ih (h.add_write x)

theorem TypeAccess.WF.foldl_add_read {a : TypeAccess T} (h : a.WF) :
    ∀ l : List T, (l.foldl TypeAccess.add_read a).WF := by
  intro l
  induction l generalizing a with
  | nil => exact h
  | cons x xs ih => exact ih (h.add_read x)

theorem TypeAccess.Built.wf {a : TypeAccess T} (h : a.Built) : a.WF := by
  induction h with
  | default => exact TypeAccess.WF.default
  | new reads writes =>
      exact (TypeAccess.WF.foldl_add_write TypeAccess.WF.default writes).foldl_add_read reads
  | add_read ty _ ih => exact ih.add_read ty
  | add_write ty _ ih => exact ih.add_write ty
  | read_all _ ih => exact ih
  | clear _ _ => exact TypeAccess.WF.default
  | extend _ _ iha ihb => exact iha.extend ihb

theorem TypeAccess.condense_wf (a : TypeAccess T) (all : List T)
    (h : ¬(a.condense all).reads_all = true) : (a.condense all).WF := by
  by_cases hra : a.reads_all = true
  · simp [TypeAccess.condense, hra] at h
  · simp only [TypeAccess.condense, hra, Bool.false_eq_true, if_false]
    intro x hx
    exact Finset.mem_union_left _ hx

/-! ### Claims C3, C4, C10 -/

/-- The compatibility semantics stated by the spec, for comparison with the
source's `is_compatible`: "true iff neither side writes something the other
reads/writes", where a side with `reads_all` set is treated as reading
every element. -/
def specCompatible (a b : TypeAccess T) : Prop :=
  ¬ ∃ x, (x ∈ a.writes ∧ (b.reads_all = true ∨ x ∈ b.reads_and_writes ∨ x ∈ b.writes)) ∨
         (x ∈ b.writes ∧ (a.reads_all = true ∨ x ∈ a.reads_and_writes ∨ x ∈ a.writes))

theorem compat_core_iff {α : Type} [DecidableEq α] {aw ar bw br : Finset α}
    (ha : aw ⊆ ar) (hb : bw ⊆ br) :
    (aw ∩ br = ∅ ∧ ar ∩ bw = ∅) ↔
      ¬ ∃ x, (x ∈ aw ∧ (x ∈ br ∨ x ∈ bw)) ∨ (x ∈ bw ∧ (x ∈ ar ∨ x ∈ aw)) := by
  constructor
  · rintro ⟨h1, h2⟩ ⟨x, hx⟩
    rcases hx with ⟨hxa, hxb | hxb⟩ | ⟨hxb, hxa | hxa⟩
    · exact Finset.eq_empty_iff_forall_not_mem.mp h1 x (Finset.mem_inter.mpr ⟨hxa, hxb⟩)
    · exact Finset.eq_empty_iff_forall_not_mem.mp h1 x (Finset.mem_inter.mpr ⟨hxa, hb hxb⟩)
    · exact Finset.eq_empty_iff_forall_not_mem.mp h2 x (Finset.mem_inter.mpr ⟨hxa, hxb⟩)
    · exact Finset.eq_empty_iff_forall_not_mem.mp h2 x (Finset.mem_inter.mpr ⟨ha hxa, hxb⟩)
  · intro h
    constructor
    · refine Finset.eq_empty_iff_forall_not_mem.mpr fun x hx => ?_
      obtain ⟨hxa, hxb⟩ := Finset.mem_inter.mp hx
      exact h ⟨x, Or.inl ⟨hxa, Or.inl hxb⟩⟩
    · refine Finset.eq_empty_iff_forall_not_mem.mpr fun x hx => ?_
      obtain ⟨hxa, hxb⟩ := Finset.mem_inter.mp hx
      exact h ⟨x, Or.inr ⟨hxb, Or.inl hxa⟩⟩

/-- C3, counterexample: with `a = default.add_write(0).read_all()` and
`b = default.add_read(0)`, the code returns `true` (it only checks that `b`
performs no writes once `a.reads_all` is set), yet `a` writes element `0`
which `b` reads, so the claimed "iff neither side writes an element the
other reads or writes" semantics is violated. -/
theorem c3_compat_spec_counterexample :
    ((TypeAccess.default.add_write 0).read_all : TypeAccess ℕ).is_compatible
        (TypeAccess.default.add_read 0) = true ∧
      ¬ specCompatible ((TypeAccess.default.add_write 0).read_all : TypeAccess ℕ)
          (TypeAccess.default.add_read 0) := by
  constructor
  · decide
  · intro h
    exact h ⟨0, Or.inl ⟨by decide, Or.inr (Or.inl (by decide))⟩⟩

/-- C3 (amended): for well-formed accesses, `is_compatible` returns true
iff: when `self.reads_all` is set, the argument's write set is empty (the
`reads_all` side's own writes are not checked — so with both `reads_all`
flags set the result depends only on the argument's writes); when only the
argument's `reads_all` is set, `self`'s write set is empty; otherwise
neither side writes an element the other reads or writes.  The same holds
for `CondensedTypeAccess::is_compatible` over bitsets. -/
theorem c3_is_compatible_characterization (T : Type) [DecidableEq T] :
    (∀ a b : TypeAccess T, a.WF → b.WF →
      (a.is_compatible b = true ↔
        (if a.reads_all then b.writes = ∅
         else if b.reads_all then a.writes = ∅
         else ¬ ∃ x, (x ∈ a.writes ∧ (x ∈ b.reads_and_writes ∨ x ∈ b.writes)) ∨
                     (x ∈ b.writes ∧ (x ∈ a.reads_and_writes ∨ x ∈ a.writes))))) ∧
    (∀ a b : CondensedTypeAccess, a.WF → b.WF →
      (a.is_compatible b = true ↔
        (if a.reads_all then b.writes = ∅
         else if b.reads_all then a.writes = ∅
         else ¬ ∃ i, (i ∈ a.writes ∧ (i ∈ b.reads_and_writes ∨ i ∈ b.writes)) ∨
                     (i ∈ b.writes ∧ (i ∈ a.reads_and_writes ∨ i ∈ a.writes))))) := by
  constructor
  · intro a b ha hb
    by_cases h1 : a.reads_all = true
    · simp [TypeAccess.is_compatible, h1]
    · by_cases h2 : b.reads_all = true
      · simp [TypeAccess.is_compatible, h1, h2]
      · simp only [TypeAccess.is_compatible, h1, h2, Bool.false_eq_true, if_false,
          decide_eq_true_iff]
        exact compat_core_iff ha hb
  · intro a b ha hb
    by_cases h1 : a.reads_all = true
    · simp [CondensedTypeAccess.is_compatible, h1]
    · by_cases h2 : b.reads_all = true
      · simp [CondensedTypeAccess.is_compatible, h1, h2]
      · simp only [CondensedTypeAccess.is_compatible, h1, h2, Bool.false_eq_true, if_false,
          decide_eq_true_iff]
        exact compat_core_iff ha hb

/-- C3, witness for the amended characterization at concrete inputs. -/
theorem c3_characterization_witness :
    ((TypeAccess.new [0] [] : TypeAccess ℕ).is_compatible (TypeAccess.new [] [1]) = true ↔
      (if (TypeAccess.new [0] [] : TypeAccess ℕ).reads_all then
        (TypeAccess.new [] [1] : TypeAccess ℕ).writes = ∅
       else if (TypeAccess.new [] [1] : TypeAccess ℕ).reads_all then
        (TypeAccess.new [0] [] : TypeAccess ℕ).writes = ∅
       else ¬ ∃ x, (x ∈ (TypeAccess.new [0] [] : TypeAccess ℕ).writes ∧
                      (x ∈ (TypeAccess.new [] [1] : TypeAccess ℕ).reads_and_writes ∨
                       x ∈ (TypeAccess.new [] [1] : TypeAccess ℕ).writes)) ∨
                   (x ∈ (TypeAccess.new [] [1] : TypeAccess ℕ).writes ∧
                      (x ∈ (TypeAccess.new [0] [] : TypeAccess ℕ).reads_and_writes ∨
                       x ∈ (TypeAccess.new [0] [] : TypeAccess ℕ).writes)))) :=
  (c3_is_compatible_characterization ℕ).1 _ _
    ((TypeAccess.Built.new [0] []).wf) ((TypeAccess.Built.new [] [1]).wf)

/-- C4: condensation is a homomorphism with respect to compatibility, for
well-formed accesses and a universe covering every element of both. -/
theorem c4_condense_is_compatible_homomorphism (T : Type) [DecidableEq T] :
    ∀ (a b : TypeAccess T) (all : List T), a.WF → b.WF →
      (∀ x ∈ a.reads_and_writes, x ∈ all) → (∀ x ∈ a.writes, x ∈ all) →
      (∀ x ∈ b.reads_and_writes, x ∈ all) → (∀ x ∈ b.writes, x ∈ all) →
      (a.condense all).is_compatible (b.condense all) = a.is_compatible b := by
  intro a b all ha hb car caw cbr cbw
  by_cases hra : a.reads_all = true
  · by_cases hrb : b.reads_all = true
    · simp only [TypeAccess.condense, hra, hrb, if_true,
        CondensedTypeAccess.is_compatible, TypeAccess.is_compatible]
      exact decide_eq_decide.mpr (condenseSet_empty_iff cbw)
    · simp only [TypeAccess.condense, hra, hrb, Bool.false_eq_true, if_true, if_false,
        CondensedTypeAccess.is_compatible, TypeAccess.is_compatible]
      exact decide_eq_decide.mpr (condenseSet_empty_iff cbw)
  · by_cases hrb : b.reads_all = true
    · simp only [TypeAccess.condense, hra, hrb, Bool.false_eq_true, if_true, if_false,
        CondensedTypeAccess.is_compatible, TypeAccess.is_compatible]
      exact decide_eq_decide.mpr (condenseSet_empty_iff caw)
    · simp only [TypeAccess.condense, hra, hrb, Bool.false_eq_true, if_false,
        CondensedTypeAccess.is_compatible, TypeAccess.is_compatible]
      refine decide_eq_decide.mpr ?_
      have hwb : a.writes ∩ b.writes ⊆ a.writes ∩ b.reads_and_writes :=
        Finset.inter_subset_inter (Finset.Subset.refl _) hb
    -- first conjunct
      have e1 : condenseSet a.writes all ∩
          (condenseSet b.writes all ∪ condenseSet b.reads_and_writes all) = ∅ ↔
          a.writes ∩ b.reads_and_writes = ∅ := by
        rw [Finset.inter_union_distrib_left, Finset.union_eq_empty,
          condenseSet_inter, condenseSet_inter,
          condenseSet_empty_iff (fun x hx => caw x (Finset.mem_inter.mp hx).1),
          condenseSet_empty_iff (fun x hx => caw x (Finset.mem_inter.mp hx).1)]
        constructor
        · rintro ⟨_, h⟩
          exact h
        · intro h
          exact ⟨Finset.subset_empty.mp (h ▸ hwb), h⟩
      have hwa : a.writes ∩ b.writes ⊆ a.reads_and_writes ∩ b.writes :=
        Finset.inter_subset_inter ha (Finset.Subset.refl _)
      have e2 : (condenseSet a.writes all ∪ condenseSet a.reads_and_writes all) ∩
          condenseSet b.writes all = ∅ ↔
          a.reads_and_writes ∩ b.writes = ∅ := by
        rw [Finset.union_inter_distrib_right, Finset.union_eq_empty,
          condenseSet_inter, condenseSet_inter,
          condenseSet_empty_iff (fun x hx => cbw x (Finset.mem_inter.mp hx).2),
          condenseSet_empty_iff (fun x hx => cbw x (Finset.mem_inter.mp hx).2)]
        constructor
        · rintro ⟨_, h⟩
          exact h
        · intro h
          exact ⟨Finset.subset_empty.mp (h ▸ hwa), h⟩
      rw [e1, e2]

/-- C4, witness at concrete inputs. -/
theorem c4_condense_witness :
    ((TypeAccess.new [0] [1] : TypeAccess ℕ).condense [0, 1, 2]).is_compatible
        ((TypeAccess.new [2] [0]).condense [0, 1, 2]) =
      (TypeAccess.new [0] [1] : TypeAccess ℕ).is_compatible (TypeAccess.new [2] [0]) :=
  c4_condense_is_compatible_homomorphism ℕ _ _ _
    ((TypeAccess.Built.new [0] [1]).wf) ((TypeAccess.Built.new [2] [0]).wf)
    (by decide) (by decide) (by decide) (by decide)

/-- C10: every `TypeAccess` built through the operations of `access.rs`
keeps `writes ⊆ reads_and_writes`, and condensing preserves the invariant
in bitset form whenever the condensed access is not `reads_all`. -/
theorem c10_writes_subset_invariant (T : Type) [DecidableEq T] :
    ∀ a : TypeAccess T, a.Built →
      a.WF ∧ ∀ all : List T, ¬(a.condense all).reads_all = true → (a.condense all).WF :=
  fun a h => ⟨h.wf, fun all hra => TypeAccess.condense_wf a all hra⟩

/-- C10, witness at a concrete built access and universe. -/
theorem c10_invariant_witness :
    (TypeAccess.new [0, 1] [2] : TypeAccess ℕ).WF ∧
      ((TypeAccess.new [0, 1] [2] : TypeAccess ℕ).condense [0, 1, 2]).WF :=
  ⟨(c10_writes_subset_invariant ℕ _ (TypeAccess.Built.new [0, 1] [2])).1,
    (c10_writes_subset_invariant ℕ _ (TypeAccess.Built.new [0, 1] [2])).2 [0, 1, 2] (by decide)⟩

/-! ## `schedule/mod.rs`: `ShouldRun`, and `schedule/stage.rs`: `Stage::run` -/

/-- `ShouldRun`: result of a run criterion. -/
inductive ShouldRun
  | No
  | Yes
  | YesAndLoop
  | NoAndLoop
deriving DecidableEq

/-- The run loop of `impl Stage for SystemStage` (stage.rs, lines 305-321)
and the identical loop of `impl Stage for Schedule` (mod.rs):
`criteria` models `self.run_criteria.should_run(world, resources)` — a
system run with mutable access to the state — and `body` models
`self.run_once(world, resources)`.  `fuel` bounds the loop. -/
def stageRun {S : Type} (fuel : ℕ) (criteria : S → ShouldRun × S) (body : S → S)
    (s : S) : Except String S :=
  match fuel with
  | 0 => .error "out of fuel"
  | fuel + 1 =>
    match criteria s with
    | (.No, s') => .ok s'
    | (.Yes, s') => .ok (body s')
    | (.YesAndLoop, s') => stageRun fuel criteria body (body s')
    | (.NoAndLoop, _) =>
        .error "NoAndLoop run criteria would loop infinitely in this situation."

/-- C9, counterexample: a run criterion is itself a system executed with
mutable access to world and resources, so a stage whose criterion answers
`No` does not leave the state bit-identical when the criterion mutates it:
with a criterion that increments a counter and returns `No`, the stage run
returns state `1` from initial state `0`. -/
theorem c9_no_bit_identical_counterexample :
    stageRun 1 (fun n => (ShouldRun.No, n + 1)) id 0 = .ok 1 ∧ (1 : ℕ) ≠ 0 :=
  ⟨rfl, by decide⟩

/-- C9 (amended): the stage run loop dispatches on the criterion result:
on `No` it returns immediately with the post-criterion state, independently
of the stage body (no stage systems execute, but the criterion's own
mutations persist); on `Yes` it runs the body exactly once and returns; on
`YesAndLoop` it runs the body and re-evaluates the criterion; on
`NoAndLoop` it aborts with the infinite-loop error. -/
theorem c9_stage_run_dispatch (S : Type) :
    ∀ (fuel : ℕ) (criteria : S → ShouldRun × S) (body : S → S) (s s' : S),
      (criteria s = (ShouldRun.No, s') →
        ∀ otherBody : S → S, stageRun (fuel + 1) criteria otherBody s = .ok s') ∧
      (criteria s = (ShouldRun.Yes, s') →
        stageRun (fuel + 1) criteria body s = .ok (body s')) ∧
      (criteria s = (ShouldRun.YesAndLoop, s') →
        stageRun (fuel + 1) criteria body s = stageRun fuel criteria body (body s')) ∧
      (criteria s = (ShouldRun.NoAndLoop, s') →
        stageRun (fuel + 1) criteria body s =
          .error "NoAndLoop run criteria would loop infinitely in this situation.") := by
  intro fuel criteria body s s'
  refine ⟨fun h b2 => ?_, fun h => ?_, fun h => ?_, fun h => ?_⟩ <;>
    simp [stageRun, h]

/-- C9, witness: the dispatch theorem applied to a concrete (non-mutating)
`No` criterion. -/
theorem c9_dispatch_witness :
    stageRun 1 (fun n : ℕ => (ShouldRun.No, n)) Nat.succ 0 = .ok 0 :=
  (c9_stage_run_dispatch ℕ 0 (fun n => (ShouldRun.No, n)) Nat.succ 0 0).1 rfl Nat.succ

/-! ## `schedule/stage.rs`: sequential-system insertion -/

/-- `SystemIndex` (stage.rs): stable reference into a stage. -/
structure SystemIndex where
  set : ℕ
  system : ℕ
deriving DecidableEq

/-- The `Ordering` of a sequential system: `None | Before(label) | After(label)`. -/
inductive SeqOrdering
  | none
  | before (label : String)
  | after (label : String)

/-- The `order.iter().enumerate().find_map(..)` search in
`find_target_index`: position of the first occurrence of `t`. -/
def findPos (t : SystemIndex) : List SystemIndex → Option ℕ
  | [] => Option.none
  | x :: xs => if x = t then some 0 else (findPos t xs).map (· + 1)

/-- `find_target_index` (stage.rs, lines 258-275): panics (`Except.error`)
when the label is not in the map, otherwise returns the position of the
target index in the order, if present. -/
def find_target_index (target : String) (order : List SystemIndex)
    (map : List (String × SystemIndex)) : Except String (Option ℕ) :=
  match map.lookup target with
  | Option.none => .error "no such system"
  | some t => .ok (findPos t order)

/-- `insert_sequential_system` (stage.rs, lines 277-296). -/
def insert_sequential_system (system_index : SystemIndex) (ordering : SeqOrdering)
    (order : List SystemIndex) (map : List (String × SystemIndex)) :
    Except String (List SystemIndex) :=
  match ordering with
  | .none => .ok (order ++ [system_index])
  | .before target =>
    match find_target_index target order map with
    | .error e => .error e
    | .ok Option.none => .ok order
    | .ok (some t) => .ok (order.insertIdx t system_index)
  | .after target =>
    match find_target_index target order map with
    | .error e => .error e
    | .ok Option.none => .ok order
    | .ok (some t) => .ok (order.insertIdx (t + 1) system_index)

theorem findPos_eq_none {t : SystemIndex} :
    ∀ {l : List SystemIndex}, findPos t l = Option.none ↔ t ∉ l := by
  intro l
  induction l with
  | nil => simp [findPos]
  | cons x xs ih =>
    by_cases hx : x = t
    · simp [findPos, hx]
    · simp only [findPos, if_neg hx, Option.map_eq_none', ih, List.mem_cons]
      constructor
      · intro h
        rintro (rfl | hmem)
        · exact hx rfl
        · exact h hmem
      · intro h hmem
        exact h (Or.inr hmem)

theorem findPos_append {t : SystemIndex} :
    ∀ {l1 l2 : List SystemIndex}, t ∉ l1 → findPos t (l1 ++ t :: l2) = some l1.length := by
  intro l1
  induction l1 with
  | nil => simp [findPos]
  | cons x xs ih =>
    intro l2 hx
    have hxt : ¬x = t := fun h => hx (h ▸ List.mem_cons_self ..)
    rw [List.cons_append, findPos, if_neg hxt, ih (fun h => hx (List.mem_cons_of_mem _ h))]
    rfl

theorem insertIdxAtAppend {ix t : SystemIndex} :
    ∀ (l1 l2 : List SystemIndex),
      (l1 ++ t :: l2).insertIdx l1.length ix = l1 ++ ix :: t :: l2 := by
  intro l1
  induction l1 with
  | nil => intro l2; rfl
  | cons x xs ih => intro l2; simp [List.insertIdx_succ_cons, ih]

theorem insertIdxAfterAppend {ix t : SystemIndex} :
    ∀ (l1 l2 : List SystemIndex),
      (l1 ++ t :: l2).insertIdx (l1.length + 1) ix = l1 ++ t :: ix :: l2 := by
  intro l1
  induction l1 with
  | nil => intro l2; rfl
  | cons x xs ih => intro l2; simp [List.insertIdx_succ_cons, ih]

/-- C8, counterexample: a `Before(L)` system whose target carries label `L`
in the label map but has not yet been placed in the slot's order is
silently dropped — the insertion returns the order unchanged, omitting the
system, instead of placing it or failing. -/
theorem c8_silent_omission_counterexample :
    insert_sequential_system ⟨0, 1⟩ (SeqOrdering.before "L") []
        [("L", ⟨0, 0⟩)] = .ok [] ∧
      (⟨0, 1⟩ : SystemIndex) ∉ ([] : List SystemIndex) := by
  constructor
  · rfl
  · simp

/-- C8 (amended): with ordering `None` the system is appended; with
`Before(L)`/`After(L)` and an unknown label the rebuild fails fast with the
generic diagnostic "no such system" (naming neither the system nor the
label); with a known label whose system already occurs in the slot's order
the system is inserted immediately before/after the first occurrence of the
target; with a known label whose system is not yet in the order the system
is silently omitted and the order is returned unchanged. -/
theorem c8_insert_sequential_characterization :
    ∀ (ix tgt : SystemIndex) (t : String) (order l1 l2 : List SystemIndex)
      (map : List (String × SystemIndex)),
      (insert_sequential_system ix SeqOrdering.none order map = .ok (order ++ [ix])) ∧
      (map.lookup t = Option.none →
        insert_sequential_system ix (SeqOrdering.before t) order map =
            .error "no such system" ∧
          insert_sequential_system ix (SeqOrdering.after t) order map =
            .error "no such system") ∧
      (map.lookup t = some tgt → tgt ∉ order →
        insert_sequential_system ix (SeqOrdering.before t) order map = .ok order ∧
          insert_sequential_system ix (SeqOrdering.after t) order map = .ok order) ∧
      (map.lookup t = some tgt → order = l1 ++ tgt :: l2 → tgt ∉ l1 →
        insert_sequential_system ix (SeqOrdering.before t) order map =
            .ok (l1 ++ ix :: tgt :: l2) ∧
          insert_sequential_system ix (SeqOrdering.after t) order map =
            .ok (l1 ++ tgt :: ix :: l2)) := by
  intro ix tgt t order l1 l2 map
  refine ⟨rfl, fun h => ?_, fun h hmem => ?_, fun h horder hpre => ?_⟩
  · constructor <;> simp [insert_sequential_system, find_target_index, h]
  · constructor <;>
      simp [insert_sequential_system, find_target_index, h, findPos_eq_none.mpr hmem]
  · subst horder
    constructor <;>
      simp [insert_sequential_system, find_target_index, h, findPos_append hpre,
        insertIdxAtAppend, insertIdxAfterAppend]

/-- C8, witness: insertion before and after a placed target at concrete
inputs. -/
theorem c8_insert_witness :
    insert_sequential_system ⟨0, 1⟩ (SeqOrdering.before "a") [⟨0, 0⟩]
        [("a", ⟨0, 0⟩)] = .ok [⟨0, 1⟩, ⟨0, 0⟩] ∧
      insert_sequential_system ⟨0, 1⟩ (SeqOrdering.after "a") [⟨0, 0⟩]
        [("a", ⟨0, 0⟩)] = .ok [⟨0, 0⟩, ⟨0, 1⟩] :=
  (c8_insert_sequential_characterization ⟨0, 1⟩ ⟨0, 0⟩ "a" [⟨0, 0⟩] [] []
    [("a", ⟨0, 0⟩)]).2.2.2 rfl rfl (by simp)

/-! ## Dependency graphs

A `HashMap<K, Vec<K>>` keyed by nodes is modelled as an association list
(`List (K × List K)`); hash-map key iteration order becomes the list
order. -/

/-- `HashMap::get` on the association list (first matching key). -/
def graphGet (g : List (T × List T)) (x : T) : Option (List T) :=
  match g with
  | [] => Option.none
  | p :: ps => if p.1 = x then some p.2 else graphGet ps x

/-- `u → v` is an edge when `v` occurs in `u`'s dependency list. -/
def Edge (g : List (T × List T)) (u v : T) : Prop :=
  ∃ l, graphGet g u = some l ∧ v ∈ l

theorem graphGet_eq_none {g : List (T × List T)} {x : T} :
    graphGet g x = Option.none ↔ x ∉ g.map Prod.fst := by
  induction g with
  | nil => simp [graphGet]
  | cons p ps ih =>
    simp only [graphGet, List.map_cons, List.mem_cons]
    by_cases hp : p.1 = x
    · simp [hp]
    · rw [if_neg hp, ih]
      constructor
      · intro h hc
        rcases hc with hc | hc
        · exact hp hc.symm
        · exact h hc
      · intro h hc
        exact h (Or.inr hc)

theorem Edge.mem_keys {g : List (T × List T)} {u v : T} (h : Edge g u v) :
    u ∈ g.map Prod.fst := by
  obtain ⟨l, hl, _⟩ := h
  by_contra hk
  rw [← graphGet_eq_none] at hk
  simp [hk] at hl

/-! ## `schedule/stage.rs`: `has_a_dependency_cycle` (claim C5)

`is_part_of_a_cycle` calls `graph.get(index).unwrap()` unconditionally
after the `current`/`visited` checks; `Except.error` models the panic of
`unwrap` on a node that is not a key of `parallel_dependencies` (and fuel
exhaustion, with a distinct message). -/

/-- `is_part_of_a_cycle` (stage.rs, lines 105-125); returns the flag and the
updated `visited` and `current` sets.  The `for dependency in
graph.get(index).unwrap()` loop (with its early `return true`) is the fold:
a `true` or `error` accumulator propagates unchanged past the remaining
dependencies. -/
def is_part_of_a_cycle (g : List (SystemIndex × List SystemIndex)) :
    ℕ → SystemIndex → Finset SystemIndex → Finset SystemIndex →
    Except String (Bool × Finset SystemIndex × Finset SystemIndex)
  | 0, _, _, _ => .error "out of fuel"
  | fuel + 1, index, visited, current =>
    if index ∈ current then .ok (true, visited, current)
    else if index ∈ visited then .ok (false, visited, current)
    else
      match graphGet g index with
      | Option.none => .error "called unwrap on None"
      | some deps =>
        match deps.foldl
            (fun (acc : Except String (Bool × Finset SystemIndex × Finset SystemIndex)) d =>
              match acc with
              | .error e => .error e
              | .ok (true, v, c) => .ok (true, v, c)
              | .ok (false, v, c) => is_part_of_a_cycle g fuel d v c)
            (.ok (false, insert index visited, insert index current)) with
        | .error e => .error e
        | .ok (true, v, c) => .ok (true, v, c)
        | .ok (false, v, c) => .ok (false, v, c.erase index)

/-- The loop of `has_a_dependency_cycle` over `parallel_dependencies.keys()`. -/
def hasCycleGo (g : List (SystemIndex × List SystemIndex)) (fuel : ℕ) :
    List SystemIndex → Finset SystemIndex → Finset SystemIndex → Except String Bool
  | [], _, _ => .ok false
  | k :: rest, visited, current =>
    match is_part_of_a_cycle g fuel k visited current with
    | .error e => .error e
    | .ok (true, _, _) => .ok true
    | .ok (false, v, c) => hasCycleGo g fuel rest v c

/-- `has_a_dependency_cycle` (stage.rs, lines 104-139). -/
def has_a_dependency_cycle (g : List (SystemIndex × List SystemIndex)) :
    Except String Bool :=
  hasCycleGo g (g.length + 1) (g.map Prod.fst) ∅ ∅

/-- C5: evaluating the cycle check on the acyclic one-edge dependency graph
`{(0,0) ↦ [(0,1)]}` — system `(0,1)` is a declared dependency with no
dependencies of its own, hence not a key of `parallel_dependencies` —
panics inside `is_part_of_a_cycle` (`graph.get(&(0,1)).unwrap()` on `None`)
instead of returning `false`, so the rebuild aborts on a graph with no
cycle. -/
theorem c5_cycle_check_panics_on_acyclic_graph :
    has_a_dependency_cycle [(⟨0, 0⟩, [⟨0, 1⟩])] = .error "called unwrap on None" ∧
      ¬ ∃ x : SystemIndex,
          Relation.TransGen (Edge [(⟨0, 0⟩, [⟨0, 1⟩])]) x x := by
  constructor
  · rfl
  · rintro ⟨x, hx⟩
    have handle : ∀ u v : SystemIndex,
        Edge [(⟨0, 0⟩, [⟨0, 1⟩])] u v → u = ⟨0, 0⟩ ∧ v = ⟨0, 1⟩ := by
      rintro u v ⟨l, hl, hv⟩
      by_cases hu : (⟨0, 0⟩ : SystemIndex) = u
      · simp [graphGet, hu] at hl
        subst hl
        exact ⟨hu.symm, by simpa using hv⟩
      · simp [graphGet, hu] at hl
    obtain ⟨b, hb, hlast⟩ := Relation.TransGen.tail'_iff.mp hx
    obtain ⟨rfl, rfl⟩ := handle b x hlast
    obtain ⟨c, hfirst, _⟩ := Relation.TransGen.head'_iff.mp hx
    obtain ⟨h01, _⟩ := handle _ c hfirst
    exact absurd h01 (by decide)

/-! ## `schedule/mod.rs`: `topological_sorting` (claim C6) -/

/-- The keys of the dependency map. -/
def keysOf (g : List (T × List T)) : List T := g.map Prod.fst

/-- `SortingResult` (mod.rs, lines 331-334). -/
inductive SortingResult (α : Type)
  | Sorted (xs : List α)
  | FoundCycle (c : Finset α)
deriving DecidableEq

/-- The DFS state of `topological_sorting`: the output list and the
`unvisited` and `current` sets. -/
structure TopoState (α : Type) where
  sorted : List α
  unvisited : Finset α
  current : Finset α

/-- `check_if_cycles_and_visit` (mod.rs, lines 340-364).  The node is
entered only when `unvisited.remove(node)` succeeds, so `node` is a key and
`graph.get(node).unwrap()` cannot panic; `(graphGet g node).getD []` is
that `unwrap`.  The loop over the node's dependencies (with its early
`return true`) is the fold: a `true` accumulator propagates unchanged. -/
def check_if_cycles_and_visit (g : List (T × List T)) :
    ℕ → T → TopoState T → Bool × TopoState T
  | 0, _, s => (true, s)
  | fuel + 1, node, s =>
    if node ∈ s.current then (true, s)
    else if node ∉ s.unvisited then (false, s)
    else
      let s1 : TopoState T := ⟨s.sorted, s.unvisited.erase node, insert node s.current⟩
      match ((graphGet g node).getD []).foldl
          (fun (acc : Bool × TopoState T) d =>
            if acc.1 then acc else check_if_cycles_and_visit g fuel d acc.2)
          (false, s1) with
      | (true, s2) => (true, s2)
      | (false, s2) => (false, ⟨s2.sorted ++ [node], s2.unvisited, s2.current.erase node⟩)

/-- The `while let Some(node) = unvisited.iter().next()` loop of
`topological_sorting`; hash-set iteration order is modelled by giving each
key its turn in key-list order (a key no longer unvisited is skipped by the
`unvisited.remove` guard exactly as if it had not been picked). -/
def topoGo (g : List (T × List T)) : List T → TopoState T → SortingResult T
  | [], s => .Sorted s.sorted
  | k :: rest, s =>
    match check_if_cycles_and_visit g (s.unvisited.card + 1) k s with
    | (true, s2) => .FoundCycle s2.current
    | (false, s2) => topoGo g rest s2

/-- `topological_sorting` (mod.rs, lines 336-375). -/
def topological_sorting (g : List (T × List T)) : SortingResult T :=
  topoGo g (keysOf g) ⟨[], (keysOf g).toFinset, ∅⟩

/-- Invariants of the DFS state: `sorted` holds distinct keys, the keys are
split between `unvisited`, `current` and `sorted`, and every emitted key's
dependencies that are keys were emitted earlier. -/
structure GoodState (g : List (T × List T)) (s : TopoState T) : Prop where
  nodup : s.sorted.Nodup
  sorted_keys : ∀ x ∈ s.sorted, x ∈ keysOf g
  unv_keys : ∀ x ∈ s.unvisited, x ∈ keysOf g
  part : ∀ x ∈ keysOf g, x ∈ s.unvisited ∨ x ∈ s.current ∨ x ∈ s.sorted
  dis_su : ∀ x ∈ s.sorted, x ∉ s.unvisited
  dis_sc : ∀ x ∈ s.sorted, x ∉ s.current
  dis_cu : ∀ x ∈ s.current, x ∉ s.unvisited
  closed : ∀ (p : ℕ) (x y : T), s.sorted[p]? = some x →
      Edge g x y → y ∈ keysOf g → ∃ q, q < p ∧ s.sorted[q]? = some y

/-- Postconditions of one `check_if_cycles_and_visit` call from state `s`. -/
structure VisitOut (g : List (T × List T)) (s : TopoState T) (node : T)
    (r : Bool × TopoState T) : Prop where
  good : GoodState g r.2
  unv_sub : r.2.unvisited ⊆ s.unvisited
  sorted_ext : ∃ l, r.2.sorted = s.sorted ++ l
  cur_eq : r.1 = false → r.2.current = s.current
  visited_done : r.1 = false → node ∉ r.2.unvisited ∧ (node ∈ r.2.sorted ∨ node ∉ keysOf g)
  cycle : r.1 = true → (∀ c ∈ s.current, Relation.TransGen (Edge g) c node) →
      ∃ x ∈ r.2.current, Relation.TransGen (Edge g) x x

/-- `check_if_cycles_and_visit` satisfies its postconditions at this fuel. -/
def VisitP (g : List (T × List T)) (fuel : ℕ) : Prop :=
  ∀ node s, GoodState g s → s.unvisited.card < fuel →
    VisitOut g s node (check_if_cycles_and_visit g fuel node s)

/-- Postconditions of the dependency fold from state `s`. -/
structure FoldOut (g : List (T × List T)) (s : TopoState T) (deps : List T)
    (r : Bool × TopoState T) : Prop where
  good : GoodState g r.2
  unv_sub : r.2.unvisited ⊆ s.unvisited
  sorted_ext : ∃ l, r.2.sorted = s.sorted ++ l
  false_out : r.1 = false →
      r.2.current = s.current ∧ ∀ d ∈ deps, (d ∈ r.2.sorted ∨ d ∉ keysOf g)
  cycle : r.1 = true →
      (∀ c ∈ s.current, ∀ d ∈ deps, Relation.TransGen (Edge g) c d) →
      ∃ x ∈ r.2.current, Relation.TransGen (Edge g) x x

theorem visitFold_skip (g : List (T × List T)) (fuel : ℕ) :
    ∀ (deps : List T) (acc : Bool × TopoState T), acc.1 = true →
      deps.foldl (fun (acc : Bool × TopoState T) d =>
        if acc.1 then acc else check_if_cycles_and_visit g fuel d acc.2) acc = acc := by
  intro deps
  induction deps with
  | nil => intro acc _; rfl
  | cons d rest ih =>
    intro acc hacc
    simp only [List.foldl_cons, hacc, if_true]
    exact ih acc hacc

theorem GoodState.enter {g : List (T × List T)} {s : TopoState T} (hg : GoodState g s)
    {node : T} (hunv : node ∈ s.unvisited) :
    GoodState g ⟨s.sorted, s.unvisited.erase node, insert node s.current⟩ where
  nodup := hg.nodup
  sorted_keys := hg.sorted_keys
  unv_keys := fun x hx => hg.unv_keys x (Finset.mem_of_mem_erase hx)
  part := by
    intro x hx
    rcases hg.part x hx with hu | hc | hs
    · by_cases hxn : x = node
      · exact Or.inr (Or.inl (hxn ▸ Finset.mem_insert_self ..))
      · exact Or.inl (Finset.mem_erase.mpr ⟨hxn, hu⟩)
    · exact Or.inr (Or.inl (Finset.mem_insert_of_mem hc))
    · exact Or.inr (Or.inr hs)
  dis_su := fun x hx hmem => hg.dis_su x hx (Finset.mem_of_mem_erase hmem)
  dis_sc := by
    intro x hx hmem
    rcases Finset.mem_insert.mp hmem with rfl | hmem
    · exact hg.dis_su x hx hunv
    · exact hg.dis_sc x hx hmem
  dis_cu := by
    intro x hx hmem
    rcases Finset.mem_insert.mp hx with rfl | hx
    · exact (Finset.not_mem_erase x _) hmem
    · exact hg.dis_cu x hx (Finset.mem_of_mem_erase hmem)
  closed := hg.closed

theorem GoodState.exitNode {g : List (T × List T)} {s2 : TopoState T}
    (hg2 : GoodState g s2) {node : T}
    (hnode_cur : node ∈ s2.current) (hnode_unv : node ∉ s2.unvisited)
    (hnode_key : node ∈ keysOf g)
    (hdeps : ∀ y, Edge g node y → y ∈ keysOf g → y ∈ s2.sorted) :
    GoodState g ⟨s2.sorted ++ [node], s2.unvisited, s2.current.erase node⟩ where
  nodup := by
    refine List.nodup_append.mpr ⟨hg2.nodup, List.nodup_singleton node, ?_⟩
    intro a ha hmem
    rw [List.mem_singleton] at hmem
    exact hg2.dis_sc a ha (hmem ▸ hnode_cur)
  sorted_keys := by
    intro x hx
    rcases List.mem_append.mp hx with hx | hx
    · exact hg2.sorted_keys x hx
    · exact (List.mem_singleton.mp hx) ▸ hnode_key
  unv_keys := hg2.unv_keys
  part := by
    intro x hx
    rcases hg2.part x hx with hu | hc | hs
    · exact Or.inl hu
    · by_cases hxn : x = node
      · exact Or.inr (Or.inr (List.mem_append.mpr (Or.inr (by simp [hxn]))))
      · exact Or.inr (Or.inl (Finset.mem_erase.mpr ⟨hxn, hc⟩))
    · exact Or.inr (Or.inr (List.mem_append.mpr (Or.inl hs)))
  dis_su := by
    intro x hx
    rcases List.mem_append.mp hx with hx | hx
    · exact hg2.dis_su x hx
    · exact (List.mem_singleton.mp hx) ▸ hnode_unv
  dis_sc := by
    intro x hx hmem
    rcases List.mem_append.mp hx with hx | hx
    · exact hg2.dis_sc x hx (Finset.mem_of_mem_erase hmem)
    · have hxn := List.mem_singleton.mp hx
      subst hxn
      exact (Finset.not_mem_erase x _) hmem
  dis_cu := fun x hx => hg2.dis_cu x (Finset.mem_of_mem_erase hx)
  closed := by
    intro p x y hp hedge hykey
    dsimp only at hp ⊢
    by_cases hplt : p < s2.sorted.length
    · rw [List.getElem?_append_left hplt] at hp
      obtain ⟨q, hq, hsq⟩ := hg2.closed p x y hp hedge hykey
      exact ⟨q, hq, by rwa [List.getElem?_append_left (lt_trans hq hplt)]⟩
    · have hplen : p = s2.sorted.length := by
        have hlt := (List.getElem?_eq_some.mp hp).1
        simp only [List.length_append, List.length_singleton] at hlt
        omega
      subst hplen
      rw [List.getElem?_concat_length] at hp
      obtain rfl : node = x := Option.some.inj hp
      have hy : y ∈ s2.sorted := hdeps y hedge hykey
      obtain ⟨q, hq⟩ := List.getElem?_of_mem hy
      have hqlt : q < s2.sorted.length := (List.getElem?_eq_some.mp hq).1
      exact ⟨q, hqlt, by rwa [List.getElem?_append_left hqlt]⟩

theorem visitFold_out (g : List (T × List T)) (fuel : ℕ) (hP : VisitP g fuel) :
    ∀ (deps : List T) (s : TopoState T), GoodState g s → s.unvisited.card < fuel →
      FoldOut g s deps (deps.foldl
        (fun (acc : Bool × TopoState T) d =>
          if acc.1 then acc else check_if_cycles_and_visit g fuel d acc.2)
        (false, s)) := by
  intro deps
  induction deps with
  | nil =>
    intro s hg hc
    exact { good := hg
            unv_sub := fun _ h => h
            sorted_ext := ⟨[], by simp⟩
            false_out := fun _ => ⟨rfl, by simp⟩
            cycle := fun h => by simp at h }
  | cons d rest ih =>
    intro s hg hc
    have hstep : (d :: rest).foldl
        (fun (acc : Bool × TopoState T) d =>
          if acc.1 then acc else check_if_cycles_and_visit g fuel d acc.2)
        (false, s) =
      rest.foldl
        (fun (acc : Bool × TopoState T) d =>
          if acc.1 then acc else check_if_cycles_and_visit g fuel d acc.2)
        (check_if_cycles_and_visit g fuel d s) := rfl
    rw [hstep]
    have h1 := hP d s hg hc
    cases hb1 : (check_if_cycles_and_visit g fuel d s).1 with
    | true =>
      have hpair : check_if_cycles_and_visit g fuel d s =
          (true, (check_if_cycles_and_visit g fuel d s).2) := by
        rw [← hb1]
      rw [hpair, visitFold_skip g fuel rest _ rfl]
      exact { good := h1.good
              unv_sub := h1.unv_sub
              sorted_ext := h1.sorted_ext
              false_out := fun hf => by simp at hf
              cycle := fun _ hcyc =>
                h1.cycle hb1 (fun c hcmem => hcyc c hcmem d (List.mem_cons_self ..)) }
    | false =>
      have hpair : check_if_cycles_and_visit g fuel d s =
          (false, (check_if_cycles_and_visit g fuel d s).2) := by
        rw [← hb1]
      rw [hpair]
      have hcard2 : (check_if_cycles_and_visit g fuel d s).2.unvisited.card < fuel :=
        lt_of_le_of_lt (Finset.card_le_card h1.unv_sub) hc
      have hout := ih (check_if_cycles_and_visit g fuel d s).2 h1.good hcard2
      have hcur1 := h1.cur_eq hb1
      refine { good := hout.good
               unv_sub := fun x hx => h1.unv_sub (hout.unv_sub hx)
               sorted_ext := ?_
               false_out := ?_
               cycle := ?_ }
      · obtain ⟨l1, hl1⟩ := h1.sorted_ext
        obtain ⟨l2, hl2⟩ := hout.sorted_ext
        exact ⟨l1 ++ l2, by rw [hl2, hl1, List.append_assoc]⟩
      · intro hf
        obtain ⟨hceq, hrest⟩ := hout.false_out hf
        refine ⟨hceq.trans hcur1, ?_⟩
        intro dd hdd
        rcases List.mem_cons.mp hdd with rfl | hdd
        · rcases (h1.visited_done hb1).2 with hds | hnk
          · obtain ⟨l2, hl2⟩ := hout.sorted_ext
            exact Or.inl (hl2 ▸ List.mem_append.mpr (Or.inl hds))
          · exact Or.inr hnk
        · exact hrest dd hdd
      · intro ht hcyc
        refine hout.cycle ht ?_
        intro c hcmem dd hdd
        exact hcyc c (hcur1 ▸ hcmem) dd (List.mem_cons_of_mem _ hdd)

theorem edge_of_mem_deps {g : List (T × List T)} {node d : T}
    (hd : d ∈ (graphGet g node).getD []) : Edge g node d := by
  cases hgg : graphGet g node with
  | none => simp [hgg] at hd
  | some l => exact ⟨l, hgg, by simpa [hgg] using hd⟩

theorem visitP_all (g : List (T × List T)) : ∀ fuel, VisitP g fuel := by
  intro fuel
  induction fuel with
  | zero =>
    intro node s hg hc
    exact absurd hc (Nat.not_lt_zero _)
  | succ fuel ih =>
    intro node s hg hc
    show VisitOut g s node (check_if_cycles_and_visit g (fuel + 1) node s)
    rw [check_if_cycles_and_visit]
    by_cases hcur : node ∈ s.current
    · rw [if_pos hcur]
      exact { good := hg
              unv_sub := fun _ h => h
              sorted_ext := ⟨[], by simp⟩
              cur_eq := fun h => by simp at h
              visited_done := fun h => by simp at h
              cycle := fun _ hcyc => ⟨node, hcur, hcyc node hcur⟩ }
    · rw [if_neg hcur]
      by_cases hunv : node ∈ s.unvisited
      · rw [if_neg (not_not_intro hunv)]
        dsimp only
        have hg1 : GoodState g
            ⟨s.sorted, s.unvisited.erase node, insert node s.current⟩ := hg.enter hunv
        have hcard1 : (s.unvisited.erase node).card < fuel := by
          have hkk := Finset.card_erase_of_mem hunv
          have hpos : 0 < s.unvisited.card := Finset.card_pos.mpr ⟨node, hunv⟩
          omega
        have hfold := visitFold_out g fuel ih ((graphGet g node).getD [])
          ⟨s.sorted, s.unvisited.erase node, insert node s.current⟩ hg1 hcard1
        rcases hsp : ((graphGet g node).getD []).foldl
            (fun (acc : Bool × TopoState T) d =>
              if acc.1 then acc else check_if_cycles_and_visit g fuel d acc.2)
            (false, ⟨s.sorted, s.unvisited.erase node, insert node s.current⟩) with ⟨b2, s2⟩
        rw [hsp] at hfold
        cases b2 with
        | true =>
          show VisitOut g s node (true, s2)
          exact { good := hfold.good
                  unv_sub := fun x hx => Finset.mem_of_mem_erase (hfold.unv_sub hx)
                  sorted_ext := hfold.sorted_ext
                  cur_eq := fun h => by simp at h
                  visited_done := fun h => by simp at h
                  cycle := by
                    intro _ hcyc
                    refine hfold.cycle rfl ?_
                    intro c hcmem d hd
                    rcases Finset.mem_insert.mp hcmem with rfl | hcmem
                    · exact Relation.TransGen.single (edge_of_mem_deps hd)
                    · exact Relation.TransGen.tail (hcyc c hcmem) (edge_of_mem_deps hd) }
        | false =>
          show VisitOut g s node
            (false, ⟨s2.sorted ++ [node], s2.unvisited, s2.current.erase node⟩)
          obtain ⟨hc2eq, hdone⟩ := hfold.false_out rfl
          have hc2eq' : s2.current = insert node s.current := hc2eq
          have hdone' : ∀ d ∈ (graphGet g node).getD [], d ∈ s2.sorted ∨ d ∉ keysOf g := hdone
          have hnode_cur2 : node ∈ s2.current := by
            rw [hc2eq']
            exact Finset.mem_insert_self ..
          have hnode_unv2 : node ∉ s2.unvisited := by
            intro hmem
            exact (Finset.not_mem_erase node s.unvisited) (hfold.unv_sub hmem)
          have hnode_key : node ∈ keysOf g := hg.unv_keys node hunv
          have hdeps : ∀ y, Edge g node y → y ∈ keysOf g → y ∈ s2.sorted := by
            intro y hedge hyk
            obtain ⟨l, hget, hyl⟩ := hedge
            have hyd : y ∈ (graphGet g node).getD [] := by simp [hget, hyl]
            rcases hdone' y hyd with h | h
            · exact h
            · exact absurd hyk h
          exact { good := hfold.good.exitNode hnode_cur2 hnode_unv2 hnode_key hdeps
                  unv_sub := fun x hx => Finset.mem_of_mem_erase (hfold.unv_sub hx)
                  sorted_ext := by
                    obtain ⟨l, hl⟩ := hfold.sorted_ext
                    have hl' : s2.sorted = s.sorted ++ l := hl
                    exact ⟨l ++ [node], by simp [hl']⟩
                  cur_eq := fun _ => by
                    show s2.current.erase node = s.current
                    rw [hc2eq']
                    exact Finset.erase_insert hcur
                  visited_done := fun _ =>
                    ⟨hnode_unv2, Or.inl (List.mem_append.mpr (Or.inr (by simp)))⟩
                  cycle := fun h => by simp at h }
      · rw [if_pos hunv]
        exact { good := hg
                unv_sub := fun _ h => h
                sorted_ext := ⟨[], by simp⟩
                cur_eq := fun _ => rfl
                visited_done := fun _ => ⟨hunv, by
                  by_cases hk : node ∈ keysOf g
                  · rcases hg.part node hk with h | h | h
                    · exact absurd h hunv
                    · exact absurd h hcur
                    · exact Or.inl h
                  · exact Or.inr hk⟩
                cycle := fun h => by simp at h }

theorem topoGo_characterization (g : List (T × List T)) :
    ∀ (rem : List T) (s : TopoState T), GoodState g s → s.current = ∅ →
      (∀ k ∈ keysOf g, k ∉ rem → k ∉ s.unvisited) →
      (∀ xs, topoGo g rem s = .Sorted xs →
        xs.Nodup ∧ (∀ x, x ∈ xs ↔ x ∈ keysOf g) ∧
        (∀ (p : ℕ) (x y : T), xs[p]? = some x → Edge g x y → y ∈ keysOf g →
          ∃ q, q < p ∧ xs[q]? = some y)) ∧
      (∀ c, topoGo g rem s = .FoundCycle c →
        c.Nonempty ∧ ∃ x ∈ c, Relation.TransGen (Edge g) x x) := by
  intro rem
  induction rem with
  | nil =>
    intro s hg hcur hcov
    constructor
    · intro xs hxs
      have hxseq : xs = s.sorted := by
        simpa [topoGo] using hxs.symm
      subst hxseq
      refine ⟨hg.nodup, ?_, hg.closed⟩
      intro x
      constructor
      · exact hg.sorted_keys x
      · intro hk
        rcases hg.part x hk with h | h | h
        · exact absurd h (hcov x hk (List.not_mem_nil x))
        · rw [hcur] at h
          exact absurd h (Finset.not_mem_empty x)
        · exact h
    · intro c hc
      simp [topoGo] at hc
  | cons k rest ih =>
    intro s hg hcur hcov
    have hv := visitP_all g (s.unvisited.card + 1) k s hg (Nat.lt_succ_self _)
    rcases hsp : check_if_cycles_and_visit g (s.unvisited.card + 1) k s with ⟨b2, s2⟩
    rw [hsp] at hv
    cases b2 with
    | false =>
      have hcov2 : ∀ kk ∈ keysOf g, kk ∉ rest → kk ∉ s2.unvisited := by
        intro kk hkk hrest
        by_cases hkkk : kk = k
        · exact hkkk ▸ (hv.visited_done rfl).1
        · intro hmem
          exact hcov kk hkk (by simp [hkkk, hrest]) (hv.unv_sub hmem)
      have hcur2 : s2.current = ∅ := by
        rw [hv.cur_eq rfl]
        exact hcur
      have hrec := ih s2 hv.good hcur2 hcov2
      constructor
      · intro xs hxs
        refine hrec.1 xs ?_
        rw [← hxs]
        simp [topoGo, hsp]
      · intro c hc
        refine hrec.2 c ?_
        rw [← hc]
        simp [topoGo, hsp]
    | true =>
      constructor
      · intro xs hxs
        simp [topoGo, hsp] at hxs
      · intro c hc
        have hceq : c = s2.current := by
          simpa [topoGo, hsp] using hc.symm
        subst hceq
        have hcyc := hv.cycle rfl (by
          intro c hcmem
          rw [hcur] at hcmem
          exact absurd hcmem (Finset.not_mem_empty c))
        obtain ⟨x, hx, hxx⟩ := hcyc
        exact ⟨⟨x, hx⟩, x, hx, hxx⟩

theorem no_cycle_of_topoOrder {g : List (T × List T)} {xs : List T}
    (hnodup : xs.Nodup) (hmem : ∀ x, x ∈ xs ↔ x ∈ keysOf g)
    (hclosed : ∀ (p : ℕ) (x y : T), xs[p]? = some x → Edge g x y → y ∈ keysOf g →
      ∃ q, q < p ∧ xs[q]? = some y) :
    ¬ ∃ x, Relation.TransGen (Edge g) x x := by
  rintro ⟨u, hu⟩
  have aux : ∀ a b, Relation.TransGen (Edge g) a b → b ∈ keysOf g →
      ∀ p : ℕ, xs[p]? = some a → ∃ q, q < p ∧ xs[q]? = some b := by
    intro a b h
    induction h with
    | single hedge =>
      intro hbk p hp
      exact hclosed p _ _ hp hedge hbk
    | tail hab hbc ihab =>
      intro hck p hp
      obtain ⟨q, hq, hqb⟩ := ihab (Edge.mem_keys hbc) p hp
      obtain ⟨r, hr, hrc⟩ := hclosed q _ _ hqb hbc hck
      exact ⟨r, lt_trans hr hq, hrc⟩
  have huk : u ∈ keysOf g := by
    obtain ⟨v, hedge, _⟩ := Relation.TransGen.head'_iff.mp hu
    exact Edge.mem_keys hedge
  obtain ⟨p, hp⟩ := List.getElem?_of_mem ((hmem u).mpr huk)
  obtain ⟨q, hq, hqu⟩ := aux u u hu huk p hp
  have hqlt : q < xs.length := (List.getElem?_eq_some.mp hqu).1
  have : q = p := List.getElem?_inj hqlt hnodup (hqu.trans hp.symm)
  omega

theorem GoodState.initial (g : List (T × List T)) :
    GoodState g ⟨[], (keysOf g).toFinset, ∅⟩ where
  nodup := List.nodup_nil
  sorted_keys := by simp
  unv_keys := by simp
  part := by
    intro x hx
    exact Or.inl (List.mem_toFinset.mpr hx)
  dis_su := by simp
  dis_sc := by simp
  dis_cu := by simp
  closed := by simp

/-- C6 (amended): `topological_sorting` returns `Sorted(xs)` iff the graph
has no cycle; in that case `xs` holds each key of the map exactly once, in
an order where every key comes after all of its dependencies that are keys.
On a cyclic graph it returns `FoundCycle` with a non-empty set — the DFS
path at the moment of detection — that contains at least one node lying on
a cycle, but possibly also nodes (the path's stem) lying on no cycle. -/
theorem c6_topological_sorting_characterization (T : Type) [DecidableEq T] :
    ∀ g : List (T × List T),
      ((∃ xs, topological_sorting g = .Sorted xs) ↔
        ¬ ∃ x, Relation.TransGen (Edge g) x x) ∧
      (∀ xs, topological_sorting g = .Sorted xs →
        xs.Nodup ∧ (∀ x, x ∈ xs ↔ x ∈ keysOf g) ∧
        (∀ (p : ℕ) (x y : T), xs[p]? = some x → Edge g x y → y ∈ keysOf g →
          ∃ q, q < p ∧ xs[q]? = some y)) ∧
      (∀ c, topological_sorting g = .FoundCycle c →
        c.Nonempty ∧ ∃ x ∈ c, Relation.TransGen (Edge g) x x) := by
  intro g
  have hchar := topoGo_characterization g (keysOf g) ⟨[], (keysOf g).toFinset, ∅⟩
    (GoodState.initial g) rfl (by
      intro k hk hrem
      exact absurd hk hrem)
  refine ⟨?_, hchar.1, hchar.2⟩
  constructor
  · rintro ⟨xs, hxs⟩
    obtain ⟨hnodup, hmem, hclosed⟩ := hchar.1 xs hxs
    exact no_cycle_of_topoOrder hnodup hmem hclosed
  · intro hnocyc
    cases hres : topological_sorting g with
    | Sorted xs => exact ⟨xs, rfl⟩
    | FoundCycle c =>
      obtain ⟨_, x, _, hxx⟩ := hchar.2 c hres
      exact absurd ⟨x, hxx⟩ hnocyc

/-- C6, counterexample to the "set of nodes lying on a cycle" reading: on
the graph `0 ↦ [1], 1 ↦ [2], 2 ↦ [1]` the cycle is `{1, 2}`, but the
returned `FoundCycle` set is the whole DFS path `{0, 1, 2}`, and node `0`
lies on no cycle. -/
theorem c6_foundcycle_stem_counterexample :
    topological_sorting [(0, [1]), (1, [2]), (2, [1])] =
        .FoundCycle (insert 2 (insert 1 (insert 0 (∅ : Finset ℕ)))) ∧
      (0 : ℕ) ∈ insert 2 (insert 1 (insert 0 (∅ : Finset ℕ))) ∧
      ¬ Relation.TransGen (Edge [(0, [1]), (1, [2]), (2, [1])]) 0 0 := by
  refine ⟨rfl, by decide, ?_⟩
  intro h
  obtain ⟨b, _, hlast⟩ := Relation.TransGen.tail'_iff.mp h
  obtain ⟨l, hget, hmem⟩ := hlast
  simp only [graphGet] at hget
  split_ifs at hget with h1 h2 h3 <;>
    first
      | exact Option.noConfusion hget
      | · rw [← Option.some.inj hget] at hmem
          simp at hmem

/-- C6, witness: the characterization applied to the concrete cyclic graph
above: the returned set is non-empty and contains a node on a cycle. -/
theorem c6_characterization_witness :
    (insert 2 (insert 1 (insert 0 (∅ : Finset ℕ)))).Nonempty ∧
      ∃ x ∈ insert 2 (insert 1 (insert 0 (∅ : Finset ℕ))),
        Relation.TransGen (Edge [(0, [1]), (1, [2]), (2, [1])]) x x :=
  (c6_topological_sorting_characterization ℕ [(0, [1]), (1, [2]), (2, [1])]).2.2
    (insert 2 (insert 1 (insert 0 (∅ : Finset ℕ)))) rfl

/-! ## `schedule/stage_executor_parallel.rs`: the parallel executor

The per-system scheduling data and the executor's bitsets are modelled
directly; channels disappear (a start signal is the `startPhase` fold
starting the system, finish events are the `finish` step's list `F`, in
receive order).  The `completed` set is bookkeeping for finish events
already processed — the code does not store it, but it is determined by
the history of the pass.  One call of `run_thread_agnostic` is a `start`
step (the send loop over `queued.difference(thread_local)`, in ascending
index order, against the growing active access) followed, when systems are
running, by a `finish` step (the blocking `recv` plus the `try_recv`
drain, counter updates, and the rebuild of the active accesses). -/

/-- `ParallelSystemSchedulingData`, together with the system's bit of the
executor's `thread_local` bitset. -/
structure ParallelSystemSchedulingData where
  thread_local : Bool
  dependants : List ℕ
  dependencies_total : ℕ
  archetype_component_access : CondensedTypeAccess
  resource_access : CondensedTypeAccess
deriving DecidableEq

/-- The data of one parallel pass, fixed by `rebuild_scheduling_data` and
`prepare_parallel_systems`: the scheduling data, and the per-system
`should_run` bitset (system `i`'s bit is set iff its set's cached criterion
result is `Yes` or `YesAndLoop`). -/
structure ExecutorCfg where
  parallel : List ParallelSystemSchedulingData
  should_run : Finset ℕ

/-- Scheduling data of system `i` (out-of-range reads are never used). -/
def ExecutorCfg.sys (cfg : ExecutorCfg) (i : ℕ) : ParallelSystemSchedulingData :=
  cfg.parallel.getD i ⟨false, [], 0, CondensedTypeAccess.default, CondensedTypeAccess.default⟩

/-- The executor's mutable scheduling state during one parallel pass. -/
structure ExecutorState where
  dependencies_now : ℕ → ℕ
  queued : Finset ℕ
  running : Finset ℕ
  completed : Finset ℕ
  active_archetype_component_access : CondensedTypeAccess
  active_resource_access : CondensedTypeAccess

/-- Union of the accesses of the systems in `R` (the value computed by the
`for index in self.running.ones()` rebuild loop; order-irrelevant since
`extend` is union). -/
def unionAccess (f : ℕ → CondensedTypeAccess) (R : Finset ℕ) : CondensedTypeAccess :=
  { reads_all := decide (∃ i ∈ R, (f i).reads_all = true),
    reads_and_writes := R.sup fun i => (f i).reads_and_writes,
    writes := R.sup fun i => (f i).writes }

/-- `can_start_now` (stage_executor_parallel.rs, lines 303-311). -/
def can_start_now (cfg : ExecutorCfg) (s : ExecutorState) (i : ℕ) : Bool :=
  (cfg.sys i).resource_access.is_compatible s.active_resource_access &&
    (cfg.sys i).archetype_component_access.is_compatible
      s.active_archetype_component_access

/-- One iteration of the start loop of `run_thread_agnostic`: a queued,
thread-agnostic, non-conflicting system is signalled to start, moved into
`running`, and its access appended to the active access. -/
def startOne (cfg : ExecutorCfg) (s : ExecutorState) (i : ℕ) : ExecutorState :=
  if i ∈ s.queued ∧ ¬(cfg.sys i).thread_local ∧ can_start_now cfg s i = true then
    { s with running := insert i s.running,
             active_archetype_component_access :=
               s.active_archetype_component_access.extend
                 (cfg.sys i).archetype_component_access,
             active_resource_access :=
               s.active_resource_access.extend (cfg.sys i).resource_access }
  else s

/-- The start loop of `run_thread_agnostic` (lines 402-419): all queued
thread-agnostic systems, in ascending index order, are started if
compatible with the (growing) active access; then
`queued.difference_with(running)`. -/
def startPhase (cfg : ExecutorCfg) (s : ExecutorState) : ExecutorState :=
  let s' := (List.range cfg.parallel.length).foldl (startOne cfg) s
  { s' with queued := s'.queued \ s'.running }

/-- One drained element of `dependants_scratch` in
`update_counters_and_queue` (lines 452-462). -/
def depStep (cfg : ExecutorCfg) (s : ExecutorState) (v : ℕ) : ExecutorState :=
  if v ∈ cfg.should_run then
    { s with dependencies_now := Function.update s.dependencies_now v
               (s.dependencies_now v - 1),
             queued := if s.dependencies_now v - 1 = 0 then insert v s.queued
               else s.queued }
  else s

/-- Extending `dependants_scratch` with `u`'s dependants and draining it. -/
def completeOne (cfg : ExecutorCfg) (s : ExecutorState) (u : ℕ) : ExecutorState :=
  (cfg.sys u).dependants.foldl (depStep cfg) s

/-- The finish part of `run_thread_agnostic` (lines 420-447): the systems
of `F` (the received finish events, in receive order) leave `running`,
their dependants' counters are decremented (queueing those that reach 0),
and the active accesses are rebuilt from the still-running systems. -/
def finishPhase (cfg : ExecutorCfg) (F : List ℕ) (s : ExecutorState) : ExecutorState :=
  let s1 := { s with running := s.running \ F.toFinset,
                     completed := s.completed ∪ F.toFinset }
  let s2 := F.foldl (completeOne cfg) s1
  { s2 with
    active_archetype_component_access :=
      unionAccess (fun i => (cfg.sys i).archetype_component_access) s2.running,
    active_resource_access :=
      unionAccess (fun i => (cfg.sys i).resource_access) s2.running }

/-- The scan of `run_a_thread_local` (lines 376-395) over
`queued.intersection(thread_local)` in ascending index order: the first
non-conflicting system, if any. -/
def first_runnable_thread_local (cfg : ExecutorCfg) (s : ExecutorState) : Option ℕ :=
  (List.range cfg.parallel.length).find? fun i =>
    decide (i ∈ s.queued) && (cfg.sys i).thread_local && can_start_now cfg s i

/-- `run_a_thread_local`: the found system runs to completion on the main
thread (while `running` systems keep running on the pool), leaves `queued`,
and its dependants' counters are updated.  The active accesses are not
touched. -/
def run_a_thread_local (cfg : ExecutorCfg) (s : ExecutorState) : ExecutorState :=
  match first_runnable_thread_local cfg s with
  | Option.none => s
  | some i =>
    completeOne cfg
      { s with queued := s.queued.erase i, completed := insert i s.completed } i

/-- The state right after `prepare_parallel_systems` (lines 315-345): each
system that should run is queued if it has no dependencies, otherwise its
counter is reset to its total; counters of systems that should not run keep
their stale values `now0` from earlier iterations.  `queued`, `running`,
`completed` and the active accesses are empty at the start of a pass. -/
def prepared_state (cfg : ExecutorCfg) (now0 : ℕ → ℕ) : ExecutorState :=
  { dependencies_now := fun i =>
      if i ∈ cfg.should_run ∧ (cfg.sys i).dependencies_total ≠ 0 then
        (cfg.sys i).dependencies_total
      else now0 i,
    queued := (Finset.range cfg.parallel.length).filter fun i =>
      i ∈ cfg.should_run ∧ (cfg.sys i).dependencies_total = 0,
    running := ∅,
    completed := ∅,
    active_archetype_component_access := CondensedTypeAccess.default,
    active_resource_access := CondensedTypeAccess.default }

/-- Atomic observable steps of the main-thread cooperative loop. -/
inductive Step (cfg : ExecutorCfg) : ExecutorState → ExecutorState → Prop
  | thread_local (s : ExecutorState) : Step cfg s (run_a_thread_local cfg s)
  | start (s : ExecutorState) : Step cfg s (startPhase cfg s)
  | finish (s : ExecutorState) (F : List ℕ) (hne : F ≠ []) (hnd : F.Nodup)
      (hsub : ∀ u ∈ F, u ∈ s.running) : Step cfg s (finishPhase cfg F s)

/-- States of the scheduling loop reachable within one stage iteration;
`now0` are the stale counters left by previous iterations (each bounded by
the corresponding total, as every pass leaves them). -/
inductive Reachable (cfg : ExecutorCfg) : ExecutorState → Prop
  | init (now0 : ℕ → ℕ) (h0 : ∀ i, now0 i ≤ (cfg.sys i).dependencies_total) :
      Reachable cfg (prepared_state cfg now0)
  | step {s t : ExecutorState} : Reachable cfg s → Step cfg s t → Reachable cfg t

/-! ### Claim C1: access compatibility of concurrently running systems -/

/-- Resource access of system `i`. -/
def resOf (cfg : ExecutorCfg) (i : ℕ) : CondensedTypeAccess :=
  (cfg.sys i).resource_access

/-- Archetype-component access of system `i`. -/
def archOf (cfg : ExecutorCfg) (i : ℕ) : CondensedTypeAccess :=
  (cfg.sys i).archetype_component_access

/-- Every pair of distinct systems of `R` is compatible in at least one
argument order of `is_compatible`. -/
def EitherCompatible (f : ℕ → CondensedTypeAccess) (R : Finset ℕ) : Prop :=
  ∀ i ∈ R, ∀ j ∈ R, i ≠ j →
    ((f i).is_compatible (f j) = true ∨ (f j).is_compatible (f i) = true)

theorem CondensedTypeAccess.is_compatible_true_iff (a b : CondensedTypeAccess) :
    a.is_compatible b = true ↔
      (if a.reads_all then b.writes = ∅
       else if b.reads_all then a.writes = ∅
       else a.writes ∩ b.reads_and_writes = ∅ ∧ a.reads_and_writes ∩ b.writes = ∅) := by
  unfold CondensedTypeAccess.is_compatible
  split_ifs <;> simp

theorem unionAccess_empty (f : ℕ → CondensedTypeAccess) :
    unionAccess f ∅ = CondensedTypeAccess.default := by
  simp [unionAccess, CondensedTypeAccess.default]

theorem unionAccess_reads_all_iff (f : ℕ → CondensedTypeAccess) (R : Finset ℕ) :
    (unionAccess f R).reads_all = true ↔ ∃ i ∈ R, (f i).reads_all = true :=
  decide_eq_true_iff

theorem unionAccess_raw_subset {f : ℕ → CondensedTypeAccess} {R : Finset ℕ} {j : ℕ}
    (hj : j ∈ R) : (f j).reads_and_writes ⊆ (unionAccess f R).reads_and_writes := by
  show (f j).reads_and_writes ⊆ R.sup fun i => (f i).reads_and_writes
  exact Finset.le_iff_subset.mp (Finset.le_sup (f := fun i => (f i).reads_and_writes) hj)

theorem unionAccess_writes_subset {f : ℕ → CondensedTypeAccess} {R : Finset ℕ} {j : ℕ}
    (hj : j ∈ R) : (f j).writes ⊆ (unionAccess f R).writes := by
  show (f j).writes ⊆ R.sup fun i => (f i).writes
  exact Finset.le_iff_subset.mp (Finset.le_sup (f := fun i => (f i).writes) hj)

theorem unionAccess_writes_empty_iff (f : ℕ → CondensedTypeAccess) (R : Finset ℕ) :
    (unionAccess f R).writes = ∅ ↔ ∀ j ∈ R, (f j).writes = ∅ := by
  rw [show (∅ : Finset ℕ) = ⊥ from rfl]
  exact Finset.sup_eq_bot_iff ..

theorem unionAccess_insert_extend (f : ℕ → CondensedTypeAccess) (R : Finset ℕ) (i : ℕ) :
    unionAccess f (insert i R) = (unionAccess f R).extend (f i) := by
  refine CondensedTypeAccess.mk.injEq .. ▸ ⟨?_, ?_, ?_⟩
  · show decide (∃ j ∈ insert i R, (f j).reads_all = true) =
      (decide (∃ j ∈ R, (f j).reads_all = true) || (f i).reads_all)
    rw [Bool.eq_iff_iff]
    simp only [decide_eq_true_iff, Bool.or_eq_true, Finset.mem_insert]
    constructor
    · rintro ⟨j, (rfl | hj), hra⟩
      · exact Or.inr hra
      · exact Or.inl ⟨j, hj, hra⟩
    · rintro (⟨j, hj, hra⟩ | hra)
      · exact ⟨j, Or.inr hj, hra⟩
      · exact ⟨i, Or.inl rfl, hra⟩
  · show (insert i R).sup (fun j => (f j).reads_and_writes) =
      R.sup (fun j => (f j).reads_and_writes) ∪ (f i).reads_and_writes
    rw [Finset.sup_insert]
    exact sup_comm ..
  · show (insert i R).sup (fun j => (f j).writes) =
      R.sup (fun j => (f j).writes) ∪ (f i).writes
    rw [Finset.sup_insert]
    exact sup_comm ..

theorem compat_union {f : ℕ → CondensedTypeAccess} {R : Finset ℕ}
    (hpair : EitherCompatible f R) {a : CondensedTypeAccess}
    (hc : a.is_compatible (unionAccess f R) = true) :
    ∀ j ∈ R, a.is_compatible (f j) = true := by
  intro j hj
  rw [CondensedTypeAccess.is_compatible_true_iff] at hc ⊢
  by_cases hra : a.reads_all = true
  · rw [if_pos hra] at hc ⊢
    exact (unionAccess_writes_empty_iff f R).mp hc j hj
  · rw [if_neg hra] at hc ⊢
    by_cases hUra : (unionAccess f R).reads_all = true
    · rw [if_pos hUra] at hc
      by_cases hjra : (f j).reads_all = true
      · rw [if_pos hjra]
        exact hc
      · rw [if_neg hjra]
        obtain ⟨c, hcR, hcra⟩ := (unionAccess_reads_all_iff f R).mp hUra
        have hcj : c ≠ j := fun h => hjra (h ▸ hcra)
        have hjw : (f j).writes = ∅ := by
          rcases hpair c hcR j hj hcj with h | h
          · rw [CondensedTypeAccess.is_compatible_true_iff, if_pos hcra] at h
            exact h
          · rw [CondensedTypeAccess.is_compatible_true_iff, if_neg hjra, if_pos hcra] at h
            exact h
        constructor
        · rw [hc]
          exact Finset.empty_inter _
        · rw [hjw]
          exact Finset.inter_empty _
    · rw [if_neg hUra] at hc
      have hjra : ¬(f j).reads_all = true := by
        intro h
        exact hUra ((unionAccess_reads_all_iff f R).mpr ⟨j, hj, h⟩)
      rw [if_neg hjra]
      obtain ⟨h1, h2⟩ := hc
      constructor
      · exact Finset.subset_empty.mp (h1 ▸
          Finset.inter_subset_inter (Finset.Subset.refl _) (unionAccess_raw_subset hj))
      · exact Finset.subset_empty.mp (h2 ▸
          Finset.inter_subset_inter (Finset.Subset.refl _) (unionAccess_writes_subset hj))

theorem EitherCompatible.insert_of {f : ℕ → CondensedTypeAccess} {R : Finset ℕ} {i : ℕ}
    (hpair : EitherCompatible f R)
    (hnew : ∀ j ∈ R, (f i).is_compatible (f j) = true) :
    EitherCompatible f (insert i R) := by
  intro a ha b hb hab
  rcases Finset.mem_insert.mp ha with hai | ha
  · rcases Finset.mem_insert.mp hb with hbi | hb
    · exact absurd (hai.trans hbi.symm) hab
    · rw [hai]
      exact Or.inl (hnew b hb)
  · rcases Finset.mem_insert.mp hb with hbi | hb
    · rw [hbi]
      exact Or.inr (hnew a ha)
    · exact hpair a ha b hb hab

theorem EitherCompatible.subset {f : ℕ → CondensedTypeAccess} {R R' : Finset ℕ}
    (hsub : R' ⊆ R) (hpair : EitherCompatible f R) : EitherCompatible f R' :=
  fun i hi j hj hij => hpair i (hsub hi) j (hsub hj) hij

/-- The executor invariant behind claim C1: active accesses are the unions
over running systems, and running systems are pairwise compatible in at
least one direction. -/
structure Inv1 (cfg : ExecutorCfg) (s : ExecutorState) : Prop where
  act_res : s.active_resource_access = unionAccess (resOf cfg) s.running
  act_arch : s.active_archetype_component_access = unionAccess (archOf cfg) s.running
  pair_res : EitherCompatible (resOf cfg) s.running
  pair_arch : EitherCompatible (archOf cfg) s.running

theorem depStep_shape (cfg : ExecutorCfg) (s : ExecutorState) (v : ℕ) :
    (depStep cfg s v).running = s.running ∧ (depStep cfg s v).completed = s.completed ∧
      (depStep cfg s v).active_resource_access = s.active_resource_access ∧
      (depStep cfg s v).active_archetype_component_access =
        s.active_archetype_component_access := by
  unfold depStep
  split_ifs <;> exact ⟨rfl, rfl, rfl, rfl⟩

theorem depFold_shape (cfg : ExecutorCfg) :
    ∀ (l : List ℕ) (s : ExecutorState),
      (l.foldl (depStep cfg) s).running = s.running ∧
      (l.foldl (depStep cfg) s).completed = s.completed ∧
      (l.foldl (depStep cfg) s).active_resource_access = s.active_resource_access ∧
      (l.foldl (depStep cfg) s).active_archetype_component_access =
        s.active_archetype_component_access := by
  intro l
  induction l with
  | nil => exact fun s => ⟨rfl, rfl, rfl, rfl⟩
  | cons v rest ih =>
    intro s
    obtain ⟨h1, h2, h3, h4⟩ := ih (depStep cfg s v)
    obtain ⟨g1, g2, g3, g4⟩ := depStep_shape cfg s v
    exact ⟨h1.trans g1, h2.trans g2, h3.trans g3, h4.trans g4⟩

theorem completeFold_shape (cfg : ExecutorCfg) :
    ∀ (F : List ℕ) (s : ExecutorState),
      (F.foldl (completeOne cfg) s).running = s.running ∧
      (F.foldl (completeOne cfg) s).completed = s.completed ∧
      (F.foldl (completeOne cfg) s).active_resource_access = s.active_resource_access ∧
      (F.foldl (completeOne cfg) s).active_archetype_component_access =
        s.active_archetype_component_access := by
  intro F
  induction F with
  | nil => exact fun s => ⟨rfl, rfl, rfl, rfl⟩
  | cons u rest ih =>
    intro s
    obtain ⟨h1, h2, h3, h4⟩ := ih (completeOne cfg s u)
    obtain ⟨g1, g2, g3, g4⟩ := depFold_shape cfg (cfg.sys u).dependants s
    exact ⟨h1.trans g1, h2.trans g2, h3.trans g3, h4.trans g4⟩

theorem Inv1.startOne {cfg : ExecutorCfg} {s : ExecutorState} (h : Inv1 cfg s) (i : ℕ) :
    Inv1 cfg (startOne cfg s i) := by
  unfold Bevy.startOne
  split_ifs with hcond
  · obtain ⟨hq, htl, hcs⟩ := hcond
    rw [can_start_now, Bool.and_eq_true] at hcs
    obtain ⟨hres, harch⟩ := hcs
    rw [h.act_res] at hres
    rw [h.act_arch] at harch
    have hres' := compat_union h.pair_res hres
    have harch' := compat_union h.pair_arch harch
    exact { act_res := by
              show s.active_resource_access.extend (resOf cfg i) = _
              rw [h.act_res, ← unionAccess_insert_extend]
            act_arch := by
              show s.active_archetype_component_access.extend (archOf cfg i) = _
              rw [h.act_arch, ← unionAccess_insert_extend]
            pair_res := h.pair_res.insert_of hres'
            pair_arch := h.pair_arch.insert_of harch' }
  · exact h

theorem Inv1.startPhase {cfg : ExecutorCfg} {s : ExecutorState} (h : Inv1 cfg s) :
    Inv1 cfg (startPhase cfg s) := by
  unfold Bevy.startPhase
  have hfold : ∀ (l : List ℕ) (s : ExecutorState), Inv1 cfg s →
      Inv1 cfg (l.foldl (Bevy.startOne cfg) s) := by
    intro l
    induction l with
    | nil => exact fun s h => h
    | cons i rest ih =>
      exact fun s h => ih (Bevy.startOne cfg s i) (Inv1.startOne h i)
  have h' := hfold (List.range cfg.parallel.length) s h
  exact { act_res := h'.act_res
          act_arch := h'.act_arch
          pair_res := h'.pair_res
          pair_arch := h'.pair_arch }

theorem Inv1.finishPhase {cfg : ExecutorCfg} {s : ExecutorState} (h : Inv1 cfg s)
    (F : List ℕ) : Inv1 cfg (finishPhase cfg F s) := by
  unfold Bevy.finishPhase
  dsimp only
  obtain ⟨hrun, _, _, _⟩ := completeFold_shape cfg F
    { s with running := s.running \ F.toFinset, completed := s.completed ∪ F.toFinset }
  refine { act_res := rfl, act_arch := rfl, pair_res := ?_, pair_arch := ?_ }
  · refine EitherCompatible.subset ?_ h.pair_res
    intro x hx
    rw [hrun] at hx
    exact Finset.mem_sdiff.mp hx |>.1
  · refine EitherCompatible.subset ?_ h.pair_arch
    intro x hx
    rw [hrun] at hx
    exact Finset.mem_sdiff.mp hx |>.1

theorem Inv1.threadLocal {cfg : ExecutorCfg} {s : ExecutorState} (h : Inv1 cfg s) :
    Inv1 cfg (run_a_thread_local cfg s) := by
  unfold run_a_thread_local
  cases hfind : first_runnable_thread_local cfg s with
  | none => exact h
  | some i =>
    unfold completeOne
    obtain ⟨hrun, _, hres, harch⟩ := depFold_shape cfg (cfg.sys i).dependants
      { s with queued := s.queued.erase i, completed := insert i s.completed }
    exact { act_res := by rw [hres, hrun]; exact h.act_res
            act_arch := by rw [harch, hrun]; exact h.act_arch
            pair_res := by rw [hrun]; exact h.pair_res
            pair_arch := by rw [hrun]; exact h.pair_arch }

theorem Inv1.base (cfg : ExecutorCfg) (now0 : ℕ → ℕ) :
    Inv1 cfg (prepared_state cfg now0) where
  act_res := by
    show CondensedTypeAccess.default = unionAccess (resOf cfg) ∅
    rw [unionAccess_empty]
  act_arch := by
    show CondensedTypeAccess.default = unionAccess (archOf cfg) ∅
    rw [unionAccess_empty]
  pair_res := fun i hi => absurd hi (Finset.not_mem_empty i)
  pair_arch := fun i hi => absurd hi (Finset.not_mem_empty i)

theorem Inv1.reachable {cfg : ExecutorCfg} {s : ExecutorState}
    (h : Reachable cfg s) : Inv1 cfg s := by
  induction h with
  | init now0 h0 => exact Inv1.base cfg now0
  | step _ hstep ih =>
    cases hstep with
    | thread_local => exact ih.threadLocal
    | start => exact ih.startPhase
    | finish F hne hnd hsub => exact ih.finishPhase F

/-- C1 (amended): in every reachable state of the scheduling loop, each
active accumulator equals the union of the accesses of the currently
running systems; systems start only through the `can_start_now` guard, and
consequently any two distinct simultaneously running systems have
compatible condensed accesses in at least one argument order of
`is_compatible` (the later-started system's access against the earlier's);
a thread-local system picked for the main thread is compatible (in the
checked direction) with every running system.  Full pairwise compatibility
in both argument orders fails, because `is_compatible` is not symmetric
when `reads_all` is combined with a non-empty write set. -/
theorem c1_running_access_compatibility (cfg : ExecutorCfg) :
    ∀ s, Reachable cfg s →
      (EitherCompatible (resOf cfg) s.running ∧
        EitherCompatible (archOf cfg) s.running) ∧
      (s.active_resource_access = unionAccess (resOf cfg) s.running ∧
        s.active_archetype_component_access = unionAccess (archOf cfg) s.running) ∧
      (∀ i, first_runnable_thread_local cfg s = some i →
        ∀ j ∈ s.running,
          (resOf cfg i).is_compatible (resOf cfg j) = true ∧
          (archOf cfg i).is_compatible (archOf cfg j) = true) := by
  intro s hr
  have h := Inv1.reachable hr
  refine ⟨⟨h.pair_res, h.pair_arch⟩, ⟨h.act_res, h.act_arch⟩, ?_⟩
  intro i hfind j hj
  have hpred := List.find?_some hfind
  rw [Bool.and_eq_true, Bool.and_eq_true] at hpred
  have hcs := hpred.2
  rw [can_start_now, Bool.and_eq_true] at hcs
  obtain ⟨hres, harch⟩ := hcs
  rw [h.act_res] at hres
  rw [h.act_arch] at harch
  exact ⟨compat_union h.pair_res hres j hj, compat_union h.pair_arch harch j hj⟩

/-- A two-system configuration: system 0 has a `reads_all` resource access
with no writes (e.g. a condensed access of a read-everything system) and
system 1 has a `reads_all` resource access that also writes element 0
(`read_all` combined with `add_write`, as `condense` produces for such a
`TypeAccess`).  Both should run, neither is thread-local, no dependencies. -/
def execCfgC1 : ExecutorCfg :=
  { parallel :=
      [⟨false, [], 0, CondensedTypeAccess.default, ⟨true, ∅, ∅⟩⟩,
       ⟨false, [], 0, CondensedTypeAccess.default, ⟨true, ∅, {0}⟩⟩],
    should_run := {0, 1} }

/-- C1, counterexample: after one start phase from the prepared state, both
systems are marked running simultaneously — system 1 passed `can_start_now`
because its `reads_all` resource access only checks that the active access
has no writes — yet `is_compatible` fails for the pair in the other order:
system 0 reads everything while system 1 writes element 0 (a genuine
read-write conflict the claimed pairwise-compatibility invariant should
exclude). -/
theorem c1_asymmetric_compatibility_counterexample :
    Reachable execCfgC1 (startPhase execCfgC1 (prepared_state execCfgC1 fun _ => 0)) ∧
      0 ∈ (startPhase execCfgC1 (prepared_state execCfgC1 fun _ => 0)).running ∧
      1 ∈ (startPhase execCfgC1 (prepared_state execCfgC1 fun _ => 0)).running ∧
      (resOf execCfgC1 0).is_compatible (resOf execCfgC1 1) = false := by
  refine ⟨Reachable.step (Reachable.init (fun _ => 0) fun i => Nat.zero_le _)
    (Step.start _), ?_, ?_, ?_⟩ <;> decide

/-- C1, witness for the amended invariant at a concrete reachable state. -/
theorem c1_compatibility_witness :
    (EitherCompatible (resOf execCfgC1) (prepared_state execCfgC1 fun _ => 0).running ∧
      EitherCompatible (archOf execCfgC1) (prepared_state execCfgC1 fun _ => 0).running) ∧
      ((prepared_state execCfgC1 fun _ => 0).active_resource_access =
          unionAccess (resOf execCfgC1) (prepared_state execCfgC1 fun _ => 0).running ∧
        (prepared_state execCfgC1 fun _ => 0).active_archetype_component_access =
          unionAccess (archOf execCfgC1) (prepared_state execCfgC1 fun _ => 0).running) ∧
      (∀ i, first_runnable_thread_local execCfgC1 (prepared_state execCfgC1 fun _ => 0) =
          some i →
        ∀ j ∈ (prepared_state execCfgC1 fun _ => 0).running,
          (resOf execCfgC1 i).is_compatible (resOf execCfgC1 j) = true ∧
          (archOf execCfgC1 i).is_compatible (archOf execCfgC1 j) = true) :=
  c1_running_access_compatibility execCfgC1 _
    (Reachable.init (fun _ => 0) fun _ => Nat.zero_le _)

/-! ### Claim C2: dependency counters and ordering -/

/-- A system is released once it has been queued (and possibly started or
finished). -/
def released (s : ExecutorState) (v : ℕ) : Prop :=
  v ∈ s.queued ∨ v ∈ s.running ∨ v ∈ s.completed

instance (s : ExecutorState) (v : ℕ) : Decidable (released s v) := by
  unfold released
  infer_instance

/-- Consistency of the scheduling data produced by
`rebuild_scheduling_data`: `should_run` bits and dependants indices are in
range, and each system's `dependencies_total` equals the number of edges
pointing at it (the dependants lists are the inverted dependency map, with
multiplicity). -/
structure ExecutorCfg.WF (cfg : ExecutorCfg) : Prop where
  should_run_lt : ∀ i ∈ cfg.should_run, i < cfg.parallel.length
  dependants_lt : ∀ u < cfg.parallel.length,
      ∀ v ∈ (cfg.sys u).dependants, v < cfg.parallel.length
  totals : ∀ v < cfg.parallel.length, (cfg.sys v).dependencies_total =
      ∑ u in Finset.range cfg.parallel.length, ((cfg.sys u).dependants.count v)

/-- Number of dependency edges into `v` whose source has not yet completed. -/
def remaining (cfg : ExecutorCfg) (s : ExecutorState) (v : ℕ) : ℕ :=
  ∑ u in Finset.range cfg.parallel.length \ s.completed,
    ((cfg.sys u).dependants.count v)

/-- The pending contents of `dependants_scratch`, for a batch `F` of
finished systems. -/
def scratchOf (cfg : ExecutorCfg) (F : List ℕ) : List ℕ :=
  (F.map fun u => (cfg.sys u).dependants).flatten

/-- The counter/queue invariant, parameterized by the still-undrained part
of `dependants_scratch` (empty between steps). -/
structure InvScratch (cfg : ExecutorCfg) (s : ExecutorState) (scratch : List ℕ) :
    Prop where
  rel_sr : ∀ v, released s v → v ∈ cfg.should_run
  rel_lt : ∀ v, released s v → v < cfg.parallel.length
  dis_qr : ∀ v ∈ s.queued, v ∉ s.running
  dis_qc : ∀ v ∈ s.queued, v ∉ s.completed
  dis_rc : ∀ v ∈ s.running, v ∉ s.completed
  rel_now : ∀ v, released s v → 0 < (cfg.sys v).dependencies_total →
      s.dependencies_now v = 0 ∧ remaining cfg s v = 0 ∧ v ∉ scratch
  unrel_now : ∀ v ∈ cfg.should_run, ¬released s v →
      s.dependencies_now v = remaining cfg s v + scratch.count v ∧
      0 < remaining cfg s v + scratch.count v
  zero_rel : ∀ v ∈ cfg.should_run, (cfg.sys v).dependencies_total = 0 → released s v
  le_total : ∀ v, s.dependencies_now v ≤ (cfg.sys v).dependencies_total
  scr_ok : ∀ v ∈ scratch, 0 < (cfg.sys v).dependencies_total ∧
      v < cfg.parallel.length

/-- The executor invariant behind claim C2. -/
def Inv2 (cfg : ExecutorCfg) (s : ExecutorState) : Prop :=
  InvScratch cfg s []

theorem mem_scratchOf {cfg : ExecutorCfg} {F : List ℕ} {v : ℕ} :
    v ∈ scratchOf cfg F ↔ ∃ u ∈ F, v ∈ (cfg.sys u).dependants := by
  simp only [scratchOf, List.mem_flatten, List.mem_map]
  constructor
  · rintro ⟨l, ⟨u, hu, rfl⟩, hv⟩
    exact ⟨u, hu, hv⟩
  · rintro ⟨u, hu, hv⟩
    exact ⟨(cfg.sys u).dependants, ⟨u, hu, rfl⟩, hv⟩

theorem count_scratchOf (cfg : ExecutorCfg) {F : List ℕ} (hnd : F.Nodup) (v : ℕ) :
    (scratchOf cfg F).count v =
      ∑ u in F.toFinset, ((cfg.sys u).dependants.count v) := by
  induction F with
  | nil => simp [scratchOf]
  | cons u F ih =>
    have hu : u ∉ F := (List.nodup_cons.mp hnd).1
    have hF : F.Nodup := (List.nodup_cons.mp hnd).2
    show ((cfg.sys u).dependants ++ scratchOf cfg F).count v = _
    rw [List.count_append, ih hF, List.toFinset_cons,
      Finset.sum_insert (fun h => hu (List.mem_toFinset.mp h))]

theorem foldCompleteOne_eq (cfg : ExecutorCfg) :
    ∀ (F : List ℕ) (s : ExecutorState),
      F.foldl (completeOne cfg) s = (scratchOf cfg F).foldl (depStep cfg) s := by
  intro F
  induction F with
  | nil => intro s; rfl
  | cons u F ih =>
    intro s
    show F.foldl (completeOne cfg) (completeOne cfg s u) = _
    rw [ih]
    show _ = ((cfg.sys u).dependants ++ scratchOf cfg F).foldl (depStep cfg) s
    rw [List.foldl_append]
    rfl

theorem depStep_released {cfg : ExecutorCfg} {s : ExecutorState} {v0 w : ℕ} :
    released (depStep cfg s v0) w ↔
      released s w ∨ (v0 ∈ cfg.should_run ∧ s.dependencies_now v0 - 1 = 0 ∧ w = v0) := by
  unfold depStep released
  split_ifs with h1 h2 <;> simp_all [Finset.mem_insert]
  · constructor
    · rintro ((rfl | hq) | hr) <;> tauto
    · rintro ((hq | hr) | rfl) <;> tauto

theorem InvScratch.depStep_pres {cfg : ExecutorCfg} {s : ExecutorState} {v0 : ℕ}
    {rest : List ℕ} (h : InvScratch cfg s (v0 :: rest)) :
    InvScratch cfg (depStep cfg s v0) rest := by
  by_cases hsr : v0 ∈ cfg.should_run
  case neg =>
    unfold depStep
    rw [if_neg hsr]
    refine { rel_sr := h.rel_sr, rel_lt := h.rel_lt, dis_qr := h.dis_qr,
             dis_qc := h.dis_qc, dis_rc := h.dis_rc, zero_rel := h.zero_rel,
             le_total := h.le_total, rel_now := ?_, unrel_now := ?_, scr_ok := ?_ }
    · intro v hv htot
      obtain ⟨h1, h2, h3⟩ := h.rel_now v hv htot
      exact ⟨h1, h2, fun hm => h3 (List.mem_cons_of_mem _ hm)⟩
    · intro v hvsr hvrel
      have hvne : v ≠ v0 := fun hh => hsr (hh ▸ hvsr)
      rw [← List.count_cons_of_ne hvne rest]
      exact h.unrel_now v hvsr hvrel
    · exact fun v hv => h.scr_ok v (List.mem_cons_of_mem _ hv)
  case pos =>
    by_cases hrel : released s v0
    case pos =>
      have h0 := h.scr_ok v0 (List.mem_cons_self ..)
      exact absurd (List.mem_cons_self ..) (h.rel_now v0 hrel h0.1).2.2
    case neg =>
      obtain ⟨hnow, hpos⟩ := h.unrel_now v0 hsr hrel
      rw [List.count_cons_self] at hnow hpos
      have hv0q : v0 ∉ s.queued := fun hh => hrel (Or.inl hh)
      have hv0r : v0 ∉ s.running := fun hh => hrel (Or.inr (Or.inl hh))
      have hv0c : v0 ∉ s.completed := fun hh => hrel (Or.inr (Or.inr hh))
      unfold depStep
      rw [if_pos hsr]
      by_cases hz : s.dependencies_now v0 - 1 = 0
      case pos =>
        rw [if_pos hz]
        have hrem0 : remaining cfg s v0 = 0 := by omega
        have hcnt0 : rest.count v0 = 0 := by omega
        have hrel' : ∀ w, (w ∈ insert v0 s.queued ∨ w ∈ s.running ∨ w ∈ s.completed) ↔
            (released s w ∨ w = v0) := by
          intro w
          unfold released
          rw [Finset.mem_insert]
          tauto
        refine { rel_sr := ?_, rel_lt := ?_, dis_qr := ?_, dis_qc := ?_,
                 dis_rc := h.dis_rc, zero_rel := ?_, le_total := ?_,
                 rel_now := ?_, unrel_now := ?_, scr_ok := ?_ }
        · intro w hw
          rcases (hrel' w).mp hw with hw | hwv
          · exact h.rel_sr w hw
          · rw [hwv]
            exact hsr
        · intro w hw
          rcases (hrel' w).mp hw with hw | hwv
          · exact h.rel_lt w hw
          · rw [hwv]
            exact (h.scr_ok v0 (List.mem_cons_self ..)).2
        · intro w hw
          rcases Finset.mem_insert.mp hw with rfl | hw
          · exact hv0r
          · exact h.dis_qr w hw
        · intro w hw
          rcases Finset.mem_insert.mp hw with rfl | hw
          · exact hv0c
          · exact h.dis_qc w hw
        · intro w hw hwt
          dsimp only
          rcases (hrel' w).mp hw with hw | hwv
          · obtain ⟨h1, h2, h3⟩ := h.rel_now w hw hwt
            have hwv : w ≠ v0 := fun hh => hrel (hh ▸ hw)
            rw [Function.update_noteq hwv]
            exact ⟨h1, h2, fun hm => h3 (List.mem_cons_of_mem _ hm)⟩
          · rw [hwv, Function.update_same]
            exact ⟨hz, hrem0, List.count_eq_zero.mp hcnt0⟩
        · intro w hwsr hwrel
          dsimp only
          have hwv : w ≠ v0 := fun hh => hwrel ((hrel' w).mpr (Or.inr hh))
          have hwrel0 : ¬released s w := fun hh => hwrel ((hrel' w).mpr (Or.inl hh))
          obtain ⟨h1, h2⟩ := h.unrel_now w hwsr hwrel0
          rw [List.count_cons_of_ne hwv] at h1 h2
          rw [Function.update_noteq hwv]
          exact ⟨h1, h2⟩
        · intro w hwsr hwt
          exact (hrel' w).mpr (Or.inl (h.zero_rel w hwsr hwt))
        · intro w
          dsimp only
          by_cases hwv : w = v0
          · subst hwv
            rw [Function.update_same]
            exact le_trans (Nat.sub_le ..) (h.le_total w)
          · rw [Function.update_noteq hwv]
            exact h.le_total w
        · exact fun v hv => h.scr_ok v (List.mem_cons_of_mem _ hv)
      case neg =>
        rw [if_neg hz]
        refine { rel_sr := h.rel_sr, rel_lt := h.rel_lt, dis_qr := h.dis_qr,
                 dis_qc := h.dis_qc, dis_rc := h.dis_rc, zero_rel := h.zero_rel,
                 le_total := ?_, rel_now := ?_, unrel_now := ?_, scr_ok := ?_ }
        · intro w hw hwt
          dsimp only
          obtain ⟨h1, h2, h3⟩ := h.rel_now w hw hwt
          have hwv : w ≠ v0 := fun hh => hrel (hh ▸ hw)
          rw [Function.update_noteq hwv]
          exact ⟨h1, h2, fun hm => h3 (List.mem_cons_of_mem _ hm)⟩
        · intro w hwsr hwrel
          dsimp only
          by_cases hwv : w = v0
          · subst hwv
            rw [Function.update_same]
            have hrem_eq : remaining cfg
                { s with dependencies_now :=
                    Function.update s.dependencies_now w (s.dependencies_now w - 1) } w =
                remaining cfg s w := rfl
            rw [hrem_eq]
            constructor
            · omega
            · omega
          · obtain ⟨h1, h2⟩ := h.unrel_now w hwsr hwrel
            rw [List.count_cons_of_ne hwv] at h1 h2
            rw [Function.update_noteq hwv]
            exact ⟨h1, h2⟩
        · intro w
          dsimp only
          by_cases hwv : w = v0
          · subst hwv
            rw [Function.update_same]
            exact le_trans (Nat.sub_le ..) (h.le_total w)
          · rw [Function.update_noteq hwv]
            exact h.le_total w
        · exact fun v hv => h.scr_ok v (List.mem_cons_of_mem _ hv)

theorem InvScratch.depFold_pres {cfg : ExecutorCfg} :
    ∀ (l l2 : List ℕ) (s : ExecutorState), InvScratch cfg s (l ++ l2) →
      InvScratch cfg (l.foldl (depStep cfg) s) l2 := by
  intro l
  induction l with
  | nil => exact fun l2 s h => h
  | cons v0 rest ih =>
    intro l2 s h
    exact ih l2 (depStep cfg s v0) (h.depStep_pres)

/-- The invariant only depends on the four scheduling fields, not on the
active accesses. -/
theorem InvScratch.of_eq {cfg : ExecutorCfg} {s s' : ExecutorState}
    {scratch : List ℕ} (h : InvScratch cfg s scratch)
    (hn : s'.dependencies_now = s.dependencies_now) (hq : s'.queued = s.queued)
    (hr : s'.running = s.running) (hc : s'.completed = s.completed) :
    InvScratch cfg s' scratch := by
  have hrel : ∀ v, released s' v ↔ released s v := by
    intro v
    unfold released
    rw [hq, hr, hc]
  have hrem : ∀ v, remaining cfg s' v = remaining cfg s v := by
    intro v
    unfold remaining
    rw [hc]
  refine { rel_sr := ?_, rel_lt := ?_, dis_qr := ?_, dis_qc := ?_, dis_rc := ?_,
           rel_now := ?_, unrel_now := ?_, zero_rel := ?_, le_total := ?_,
           scr_ok := h.scr_ok }
  · exact fun v hv => h.rel_sr v ((hrel v).mp hv)
  · exact fun v hv => h.rel_lt v ((hrel v).mp hv)
  · intro v hv
    rw [hq] at hv
    rw [hr]
    exact h.dis_qr v hv
  · intro v hv
    rw [hq] at hv
    rw [hc]
    exact h.dis_qc v hv
  · intro v hv
    rw [hr] at hv
    rw [hc]
    exact h.dis_rc v hv
  · intro v hv ht
    rw [hn, hrem]
    exact h.rel_now v ((hrel v).mp hv) ht
  · intro v hv hnr
    rw [hn, hrem]
    exact h.unrel_now v hv (fun hh => hnr ((hrel v).mpr hh))
  · exact fun v hv ht => (hrel v).mpr (h.zero_rel v hv ht)
  · intro v
    rw [hn]
    exact h.le_total v

/-- Entering a batch of finish events: a state `s1` that marks the systems
of `F` (released, not yet completed) as completed without touching the
counters satisfies the invariant with `F`'s dependants as the pending
scratch contents. -/
theorem InvScratch.entry {cfg : ExecutorCfg} {s s1 : ExecutorState} {F : List ℕ}
    (hwf : cfg.WF) (h : Inv2 cfg s) (hnd : F.Nodup)
    (hFrel : ∀ u ∈ F, released s u)
    (hFnc : ∀ u ∈ F, u ∉ s.completed)
    (hrel1 : ∀ v, released s1 v ↔ released s v)
    (hn1 : s1.dependencies_now = s.dependencies_now)
    (hc1 : s1.completed = s.completed ∪ F.toFinset)
    (hqr : ∀ v ∈ s1.queued, v ∉ s1.running)
    (hqc : ∀ v ∈ s1.queued, v ∉ s1.completed)
    (hrc : ∀ v ∈ s1.running, v ∉ s1.completed) :
    InvScratch cfg s1 (scratchOf cfg F) := by
  have hFsub : F.toFinset ⊆ Finset.range cfg.parallel.length \ s.completed := by
    intro u hu
    have huF : u ∈ F := List.mem_toFinset.mp hu
    exact Finset.mem_sdiff.mpr
      ⟨Finset.mem_range.mpr (h.rel_lt u (hFrel u huF)), hFnc u huF⟩
  have hsplit : ∀ v, remaining cfg s v =
      remaining cfg s1 v + (scratchOf cfg F).count v := by
    intro v
    have hset : Finset.range cfg.parallel.length \ s1.completed =
        (Finset.range cfg.parallel.length \ s.completed) \ F.toFinset := by
      rw [hc1]
      ext x
      simp only [Finset.mem_sdiff, Finset.mem_union]
      tauto
    rw [remaining, remaining, hset, count_scratchOf cfg hnd v]
    exact (Finset.sum_sdiff hFsub).symm
  refine { rel_sr := ?_, rel_lt := ?_, dis_qr := hqr, dis_qc := hqc, dis_rc := hrc,
           rel_now := ?_, unrel_now := ?_, zero_rel := ?_, le_total := ?_,
           scr_ok := ?_ }
  · exact fun v hv => h.rel_sr v ((hrel1 v).mp hv)
  · exact fun v hv => h.rel_lt v ((hrel1 v).mp hv)
  · intro v hv ht
    obtain ⟨h1, h2, _⟩ := h.rel_now v ((hrel1 v).mp hv) ht
    have hs := hsplit v
    rw [h2] at hs
    refine ⟨by rw [hn1]; exact h1, by omega, ?_⟩
    intro hm
    have hpos := List.count_pos_iff.mpr hm
    omega
  · intro v hv hnr
    obtain ⟨h1, h2⟩ := h.unrel_now v hv (fun hh => hnr ((hrel1 v).mpr hh))
    simp only [List.count_nil] at h1 h2
    have hs := hsplit v
    constructor
    · rw [hn1]
      omega
    · omega
  · exact fun v hv ht => (hrel1 v).mpr (h.zero_rel v hv ht)
  · intro v
    rw [hn1]
    exact h.le_total v
  · intro v hv
    obtain ⟨u, huF, hvd⟩ := mem_scratchOf.mp hv
    have hul : u < cfg.parallel.length := h.rel_lt u (hFrel u huF)
    have hvl : v < cfg.parallel.length := hwf.dependants_lt u hul v hvd
    refine ⟨?_, hvl⟩
    rw [hwf.totals v hvl]
    have hle : (cfg.sys u).dependants.count v ≤
        ∑ w in Finset.range cfg.parallel.length,
          ((cfg.sys w).dependants.count v) :=
      Finset.single_le_sum (f := fun w => ((cfg.sys w).dependants.count v))
        (fun _ _ => Nat.zero_le _) (Finset.mem_range.mpr hul)
    have hpos : 0 < (cfg.sys u).dependants.count v := List.count_pos_iff.mpr hvd
    omega

/-- The invariant is preserved by a finish step: the finished batch leaves
`running`, enters `completed`, and its dependants' counters are drained. -/
theorem Inv2.finishStep {cfg : ExecutorCfg} {s : ExecutorState} {F : List ℕ}
    (hwf : cfg.WF) (h : Inv2 cfg s) (hnd : F.Nodup)
    (hsub : ∀ u ∈ F, u ∈ s.running) :
    Inv2 cfg (finishPhase cfg F s) := by
  have hFrel : ∀ u ∈ F, released s u := fun u hu => Or.inr (Or.inl (hsub u hu))
  have hFnc : ∀ u ∈ F, u ∉ s.completed := fun u hu => h.dis_rc u (hsub u hu)
  have hent : InvScratch cfg
      { s with running := s.running \ F.toFinset,
               completed := s.completed ∪ F.toFinset } (scratchOf cfg F) := by
    refine InvScratch.entry hwf h hnd hFrel hFnc ?_ rfl rfl ?_ ?_ ?_
    · intro v
      unfold released
      dsimp only
      rw [Finset.mem_sdiff, Finset.mem_union]
      constructor
      · rintro (hv | hv | hv)
        · exact Or.inl hv
        · exact Or.inr (Or.inl hv.1)
        · rcases hv with hv | hv
          · exact Or.inr (Or.inr hv)
          · exact Or.inr (Or.inl (hsub v (List.mem_toFinset.mp hv)))
      · rintro (hv | hv | hv)
        · exact Or.inl hv
        · by_cases hvF : v ∈ F.toFinset
          · exact Or.inr (Or.inr (Or.inr hvF))
          · exact Or.inr (Or.inl ⟨hv, hvF⟩)
        · exact Or.inr (Or.inr (Or.inl hv))
    · intro v hv hr'
      exact h.dis_qr v hv (Finset.mem_sdiff.mp hr').1
    · intro v hv hc'
      rcases Finset.mem_union.mp hc' with hc | hf
      · exact h.dis_qc v hv hc
      · exact h.dis_qr v hv (hsub v (List.mem_toFinset.mp hf))
    · intro v hv hc'
      obtain ⟨hvr, hvF⟩ := Finset.mem_sdiff.mp hv
      rcases Finset.mem_union.mp hc' with hc | hf
      · exact h.dis_rc v hvr hc
      · exact hvF hf
  have hfold : InvScratch cfg
      ((scratchOf cfg F).foldl (depStep cfg)
        { s with running := s.running \ F.toFinset,
                 completed := s.completed ∪ F.toFinset }) [] :=
    InvScratch.depFold_pres (scratchOf cfg F) [] _
      (by rw [List.append_nil]; exact hent)
  rw [← foldCompleteOne_eq] at hfold
  exact InvScratch.of_eq hfold rfl rfl rfl rfl

/-- Shape of the start loop: it only moves some queued systems into
`running`; `queued`, `completed` and the counters are untouched. -/
theorem startFold_shape (cfg : ExecutorCfg) :
    ∀ (l : List ℕ) (s : ExecutorState),
      ∃ A : Finset ℕ, A ⊆ s.queued ∧
        (l.foldl (startOne cfg) s).running = s.running ∪ A ∧
        (l.foldl (startOne cfg) s).queued = s.queued ∧
        (l.foldl (startOne cfg) s).completed = s.completed ∧
        (l.foldl (startOne cfg) s).dependencies_now = s.dependencies_now := by
  intro l
  induction l with
  | nil =>
    intro s
    exact ⟨∅, Finset.empty_subset _, (Finset.union_empty _).symm, rfl, rfl, rfl⟩
  | cons i l ih =>
    intro s
    simp only [List.foldl_cons]
    by_cases hc : i ∈ s.queued ∧ ¬(cfg.sys i).thread_local ∧
        can_start_now cfg s i = true
    · have ht : (startOne cfg s i).running = insert i s.running ∧
          (startOne cfg s i).queued = s.queued ∧
          (startOne cfg s i).completed = s.completed ∧
          (startOne cfg s i).dependencies_now = s.dependencies_now := by
        unfold startOne
        rw [if_pos hc]
        exact ⟨rfl, rfl, rfl, rfl⟩
      obtain ⟨A, hA, hr, hq, hcpl, hn⟩ := ih (startOne cfg s i)
      refine ⟨insert i A, ?_, ?_, ?_, ?_, ?_⟩
      · intro x hx
        rcases Finset.mem_insert.mp hx with rfl | hx
        · exact hc.1
        · exact ht.2.1 ▸ hA hx
      · rw [hr, ht.1, Finset.insert_union, Finset.union_insert]
      · rw [hq, ht.2.1]
      · rw [hcpl, ht.2.2.1]
      · rw [hn, ht.2.2.2]
    · have ht : startOne cfg s i = s := by
        unfold startOne
        rw [if_neg hc]
      rw [ht]
      exact ih s

/-- The invariant is preserved by a start phase. -/
theorem Inv2.startStep {cfg : ExecutorCfg} {s : ExecutorState} (h : Inv2 cfg s) :
    Inv2 cfg (startPhase cfg s) := by
  obtain ⟨A, hA, hr, hq, hcpl, hn⟩ :=
    startFold_shape cfg (List.range cfg.parallel.length) s
  have hpr : (startPhase cfg s).running = s.running ∪ A := hr
  have hpq : (startPhase cfg s).queued = s.queued \ (s.running ∪ A) := by
    show ((List.range cfg.parallel.length).foldl (startOne cfg) s).queued \
        ((List.range cfg.parallel.length).foldl (startOne cfg) s).running = _
    rw [hq, hr]
  have hpc : (startPhase cfg s).completed = s.completed := hcpl
  have hpn : (startPhase cfg s).dependencies_now = s.dependencies_now := hn
  have hrel1 : ∀ v, released (startPhase cfg s) v ↔ released s v := by
    intro v
    unfold released
    rw [hpq, hpr, hpc]
    constructor
    · rintro (hv | hv | hv)
      · exact Or.inl (Finset.mem_sdiff.mp hv).1
      · rcases Finset.mem_union.mp hv with hv | hv
        · exact Or.inr (Or.inl hv)
        · exact Or.inl (hA hv)
      · exact Or.inr (Or.inr hv)
    · rintro (hv | hv | hv)
      · by_cases hvr : v ∈ s.running ∪ A
        · exact Or.inr (Or.inl hvr)
        · exact Or.inl (Finset.mem_sdiff.mpr ⟨hv, hvr⟩)
      · exact Or.inr (Or.inl (Finset.mem_union_left _ hv))
      · exact Or.inr (Or.inr hv)
  have hrem : ∀ v, remaining cfg (startPhase cfg s) v = remaining cfg s v := by
    intro v
    unfold remaining
    rw [hpc]
  show InvScratch cfg (startPhase cfg s) []
  refine { rel_sr := ?_, rel_lt := ?_, dis_qr := ?_, dis_qc := ?_, dis_rc := ?_,
           rel_now := ?_, unrel_now := ?_, zero_rel := ?_, le_total := ?_,
           scr_ok := ?_ }
  · exact fun v hv => h.rel_sr v ((hrel1 v).mp hv)
  · exact fun v hv => h.rel_lt v ((hrel1 v).mp hv)
  · intro v hv
    rw [hpq] at hv
    rw [hpr]
    exact (Finset.mem_sdiff.mp hv).2
  · intro v hv
    rw [hpq] at hv
    rw [hpc]
    exact h.dis_qc v (Finset.mem_sdiff.mp hv).1
  · intro v hv
    rw [hpr] at hv
    rw [hpc]
    rcases Finset.mem_union.mp hv with hv | hv
    · exact h.dis_rc v hv
    · exact h.dis_qc v (hA hv)
  · intro v hv ht
    obtain ⟨h1, h2, h3⟩ := h.rel_now v ((hrel1 v).mp hv) ht
    exact ⟨by rw [hpn]; exact h1, by rw [hrem]; exact h2, h3⟩
  · intro v hv hnr
    obtain ⟨h1, h2⟩ := h.unrel_now v hv (fun hh => hnr ((hrel1 v).mpr hh))
    exact ⟨by rw [hpn, hrem]; exact h1, by rw [hrem]; exact h2⟩
  · exact fun v hv ht => (hrel1 v).mpr (h.zero_rel v hv ht)
  · intro v
    rw [hpn]
    exact h.le_total v
  · exact fun v hv => absurd hv (List.not_mem_nil v)

/-- The invariant is preserved by running a thread-local system. -/
theorem Inv2.threadLocalStep {cfg : ExecutorCfg} {s : ExecutorState}
    (hwf : cfg.WF) (h : Inv2 cfg s) :
    Inv2 cfg (run_a_thread_local cfg s) := by
  cases hfind : first_runnable_thread_local cfg s with
  | none =>
    have he : run_a_thread_local cfg s = s := by
      unfold run_a_thread_local
      rw [hfind]
    rw [he]
    exact h
  | some i =>
    have he : run_a_thread_local cfg s =
        completeOne cfg
          { s with queued := s.queued.erase i, completed := insert i s.completed }
          i := by
      unfold run_a_thread_local
      rw [hfind]
    rw [he]
    have hiq : i ∈ s.queued := by
      have hp := List.find?_some hfind
      rw [Bool.and_eq_true, Bool.and_eq_true, decide_eq_true_eq] at hp
      exact hp.1.1
    have hic : i ∉ s.completed := h.dis_qc i hiq
    have hir : i ∉ s.running := h.dis_qr i hiq
    have hent : InvScratch cfg
        { s with queued := s.queued.erase i, completed := insert i s.completed }
        (scratchOf cfg [i]) := by
      refine InvScratch.entry hwf h
        (List.nodup_cons.mpr ⟨List.not_mem_nil i, List.nodup_nil⟩)
        ?_ ?_ ?_ rfl ?_ ?_ ?_ ?_
      · intro u hu
        rw [List.mem_singleton] at hu
        subst hu
        exact Or.inl hiq
      · intro u hu
        rw [List.mem_singleton] at hu
        subst hu
        exact hic
      · intro v
        unfold released
        dsimp only
        rw [Finset.mem_insert]
        constructor
        · rintro (hv | hv | hv)
          · exact Or.inl (Finset.mem_of_mem_erase hv)
          · exact Or.inr (Or.inl hv)
          · rcases hv with rfl | hv
            · exact Or.inl hiq
            · exact Or.inr (Or.inr hv)
        · rintro (hv | hv | hv)
          · by_cases hvi : v = i
            · subst hvi
              exact Or.inr (Or.inr (Or.inl rfl))
            · exact Or.inl (Finset.mem_erase.mpr ⟨hvi, hv⟩)
          · exact Or.inr (Or.inl hv)
          · exact Or.inr (Or.inr (Or.inr hv))
      · dsimp only
        ext x
        simp only [Finset.mem_insert, Finset.mem_union, List.toFinset_cons,
          List.toFinset_nil, insert_emptyc_eq, Finset.mem_singleton]
        tauto
      · intro v hv
        exact h.dis_qr v (Finset.mem_of_mem_erase hv)
      · intro v hv
        obtain ⟨hvi, hvq⟩ := Finset.mem_erase.mp hv
        rw [Finset.mem_insert]
        rintro (rfl | hc)
        · exact hvi rfl
        · exact h.dis_qc v hvq hc
      · intro v hv
        rw [Finset.mem_insert]
        rintro (rfl | hc)
        · exact hir hv
        · exact h.dis_rc v hv hc
    have hfold : InvScratch cfg
        ((scratchOf cfg [i]).foldl (depStep cfg)
          { s with queued := s.queued.erase i,
                   completed := insert i s.completed }) [] :=
      InvScratch.depFold_pres (scratchOf cfg [i]) [] _
        (by rw [List.append_nil]; exact hent)
    have hsc : scratchOf cfg [i] = (cfg.sys i).dependants ++ [] := rfl
    rw [hsc, List.foldl_append, List.foldl_nil] at hfold
    exact hfold

/-- The invariant holds right after `prepare_parallel_systems`, for any
stale counters bounded by the totals. -/
theorem Inv2.at_prepared {cfg : ExecutorCfg} (hwf : cfg.WF) (now0 : ℕ → ℕ)
    (h0 : ∀ i, now0 i ≤ (cfg.sys i).dependencies_total) :
    Inv2 cfg (prepared_state cfg now0) := by
  have hq : ∀ v, v ∈ (prepared_state cfg now0).queued ↔
      v < cfg.parallel.length ∧ v ∈ cfg.should_run ∧
        (cfg.sys v).dependencies_total = 0 := by
    intro v
    show v ∈ (Finset.range cfg.parallel.length).filter _ ↔ _
    rw [Finset.mem_filter, Finset.mem_range]
  have hrel : ∀ v, released (prepared_state cfg now0) v ↔
      v < cfg.parallel.length ∧ v ∈ cfg.should_run ∧
        (cfg.sys v).dependencies_total = 0 := by
    intro v
    unfold released
    rw [hq v]
    constructor
    · rintro (hv | hv | hv)
      · exact hv
      · exact absurd hv (Finset.not_mem_empty v)
      · exact absurd hv (Finset.not_mem_empty v)
    · exact fun hv => Or.inl hv
  have hnow : ∀ v, (prepared_state cfg now0).dependencies_now v =
      if v ∈ cfg.should_run ∧ (cfg.sys v).dependencies_total ≠ 0 then
        (cfg.sys v).dependencies_total
      else now0 v := fun v => rfl
  have hrem : ∀ v, v < cfg.parallel.length →
      remaining cfg (prepared_state cfg now0) v =
        (cfg.sys v).dependencies_total := by
    intro v hv
    unfold remaining
    rw [show Finset.range cfg.parallel.length \
          (prepared_state cfg now0).completed = Finset.range cfg.parallel.length
        from Finset.sdiff_empty, hwf.totals v hv]
  show InvScratch cfg (prepared_state cfg now0) []
  refine { rel_sr := ?_, rel_lt := ?_, dis_qr := ?_, dis_qc := ?_, dis_rc := ?_,
           rel_now := ?_, unrel_now := ?_, zero_rel := ?_, le_total := ?_,
           scr_ok := ?_ }
  · exact fun v hv => ((hrel v).mp hv).2.1
  · exact fun v hv => ((hrel v).mp hv).1
  · exact fun v _ => Finset.not_mem_empty v
  · exact fun v _ => Finset.not_mem_empty v
  · exact fun v hv => absurd hv (Finset.not_mem_empty v)
  · intro v hv ht
    exact absurd ((hrel v).mp hv).2.2 (Nat.pos_iff_ne_zero.mp ht)
  · intro v hvsr hvnr
    have hvl : v < cfg.parallel.length := hwf.should_run_lt v hvsr
    have htne : (cfg.sys v).dependencies_total ≠ 0 := by
      intro h0'
      exact hvnr ((hrel v).mpr ⟨hvl, hvsr, h0'⟩)
    constructor
    · rw [hnow v, if_pos ⟨hvsr, htne⟩, hrem v hvl]
      simp
    · rw [hrem v hvl]
      simp only [List.count_nil, Nat.add_zero]
      omega
  · exact fun v hvsr ht => (hrel v).mpr ⟨hwf.should_run_lt v hvsr, hvsr, ht⟩
  · intro v
    rw [hnow v]
    split_ifs with hc
    · exact le_refl _
    · exact h0 v
  · exact fun v hv => absurd hv (List.not_mem_nil v)

/-- The invariant holds in every reachable state. -/
theorem Inv2.always {cfg : ExecutorCfg} {s : ExecutorState} (hwf : cfg.WF)
    (h : Reachable cfg s) : Inv2 cfg s := by
  induction h with
  | init now0 h0 => exact Inv2.at_prepared hwf now0 h0
  | step _ hstep ih =>
    cases hstep with
    | thread_local => exact Inv2.threadLocalStep hwf ih
    | start => exact ih.startStep
    | finish F hne hnd hsub => exact Inv2.finishStep hwf ih hnd hsub

/-- C2: in every reachable state of a stage iteration (for scheduling data
consistent with `rebuild_scheduling_data`), `dependencies_now` never exceeds
`dependencies_total`; for every dependency edge `u → v` (i.e. `v` in `u`'s
dependants list), `v` is queued, running or completed only after `u` has
completed; every queued system has its `should_run` bit set and, if it has
dependencies, its counter at `0`; and conversely a should-run system with
dependencies whose counter has reached `0` has been released into the queue
(it is queued, running, or already completed). -/
theorem c2_dependency_counters_and_queue (cfg : ExecutorCfg) (s : ExecutorState)
    (hwf : cfg.WF) (hreach : Reachable cfg s) :
    (∀ v, s.dependencies_now v ≤ (cfg.sys v).dependencies_total) ∧
    (∀ u, u < cfg.parallel.length → ∀ v ∈ (cfg.sys u).dependants,
      released s v → u ∈ s.completed) ∧
    (∀ v ∈ s.queued, v ∈ cfg.should_run ∧
      (0 < (cfg.sys v).dependencies_total → s.dependencies_now v = 0)) ∧
    (∀ v ∈ cfg.should_run, 0 < (cfg.sys v).dependencies_total →
      s.dependencies_now v = 0 → released s v) := by
  have h := Inv2.always hwf hreach
  refine ⟨h.le_total, ?_, ?_, ?_⟩
  · intro u hu v hv hrelv
    have hvl : v < cfg.parallel.length := hwf.dependants_lt u hu v hv
    have hcnt : 0 < (cfg.sys u).dependants.count v := List.count_pos_iff.mpr hv
    have htot : 0 < (cfg.sys v).dependencies_total := by
      rw [hwf.totals v hvl]
      have hle : (cfg.sys u).dependants.count v ≤
          ∑ w in Finset.range cfg.parallel.length,
            ((cfg.sys w).dependants.count v) :=
        Finset.single_le_sum (f := fun w => ((cfg.sys w).dependants.count v))
          (fun _ _ => Nat.zero_le _) (Finset.mem_range.mpr hu)
      omega
    have hrem := (h.rel_now v hrelv htot).2.1
    by_contra huc
    have husub : u ∈ Finset.range cfg.parallel.length \ s.completed :=
      Finset.mem_sdiff.mpr ⟨Finset.mem_range.mpr hu, huc⟩
    have hle : (cfg.sys u).dependants.count v ≤
        ∑ w in Finset.range cfg.parallel.length \ s.completed,
          ((cfg.sys w).dependants.count v) :=
      Finset.single_le_sum (f := fun w => ((cfg.sys w).dependants.count v))
        (fun _ _ => Nat.zero_le _) husub
    unfold remaining at hrem
    omega
  · intro v hv
    have hrelv : released s v := Or.inl hv
    exact ⟨h.rel_sr v hrelv, fun htot => (h.rel_now v hrelv htot).1⟩
  · intro v hvsr htot hz
    by_contra hnr
    obtain ⟨h1, h2⟩ := h.unrel_now v hvsr hnr
    simp only [List.count_nil] at h1 h2
    omega

/-- A two-system configuration with one dependency edge `0 → 1`: system 0
has no dependencies and system 1 depends on it (`dependants` of 0 is `[1]`,
`dependencies_total` of 1 is `1`); both should run, neither is
thread-local. -/
def execCfgC2 : ExecutorCfg :=
  { parallel :=
      [⟨false, [1], 0, CondensedTypeAccess.default, CondensedTypeAccess.default⟩,
       ⟨false, [], 1, CondensedTypeAccess.default, CondensedTypeAccess.default⟩],
    should_run := {0, 1} }

/-- C2, witness at the prepared state of the two-system configuration. -/
theorem c2_counters_witness :
    (∀ v, (prepared_state execCfgC2 fun _ => 0).dependencies_now v ≤
        (execCfgC2.sys v).dependencies_total) ∧
    (∀ u, u < execCfgC2.parallel.length → ∀ v ∈ (execCfgC2.sys u).dependants,
      released (prepared_state execCfgC2 fun _ => 0) v →
        u ∈ (prepared_state execCfgC2 fun _ => 0).completed) ∧
    (∀ v ∈ (prepared_state execCfgC2 fun _ => 0).queued,
      v ∈ execCfgC2.should_run ∧
      (0 < (execCfgC2.sys v).dependencies_total →
        (prepared_state execCfgC2 fun _ => 0).dependencies_now v = 0)) ∧
    (∀ v ∈ execCfgC2.should_run, 0 < (execCfgC2.sys v).dependencies_total →
      (prepared_state execCfgC2 fun _ => 0).dependencies_now v = 0 →
        released (prepared_state execCfgC2 fun _ => 0) v) :=
  c2_dependency_counters_and_queue execCfgC2 _
    ⟨by decide, by decide, by decide⟩
    (Reachable.init (fun _ => 0) fun _ => Nat.zero_le _)

/-! ### Claim C7: buffer application order within an outer iteration -/

/-- Observable events of one outer iteration of `execute_stage`
(stage_executor_parallel.rs, lines 112-156). -/
inductive StageEvent
  | seqAtStart (i : SystemIndex)
  | parallelRun (i : SystemIndex)
  | seqBeforeCommands (i : SystemIndex)
  | applyCmd (i : SystemIndex)
  | seqAtEnd (i : SystemIndex)
deriving DecidableEq

/-- The `Yes | YesAndLoop` pattern guarding sequential runs and buffer
application. -/
def shouldRunSet : ShouldRun → Bool
  | ShouldRun.Yes => true
  | ShouldRun.YesAndLoop => true
  | _ => false

/-- Modelled from the spec: `ExecutorCommonMethods::run_systems_sequence`
(its definition is not part of this tree) runs the given precomputed order
of sequential systems, skipping those whose set's cached criterion result
was `No` or `NoAndLoop`. -/
def runSequenceEvents (should : ℕ → ShouldRun) (order : List SystemIndex)
    (mk : SystemIndex → StageEvent) : List StageEvent :=
  (order.filter fun i => shouldRunSet (should i.set)).map mk

/-- The buffer-application loop `for scheduling_data in &self.parallel`
(stage_executor_parallel.rs, lines 142-150): each parallel system, in the
stable descriptor order of the scheduling data, has its buffers applied iff
its set's cached criterion result matched `Yes | YesAndLoop`. -/
def applyBuffersEvents (should : ℕ → ShouldRun) (parallel : List SystemIndex) :
    List StageEvent :=
  (parallel.filter fun i => shouldRunSet (should i.set)).map StageEvent.applyCmd

/-- One outer iteration of `execute_stage` (lines 112-156): the `at_start`
sequence, the parallel pass (some interleaving of parallel-system runs,
all completed when the pool scope returns), the `before_commands` sequence,
the buffer-application loop, and the `at_end` sequence, in program order. -/
def iterationTrace (should : ℕ → ShouldRun)
    (at_start before_commands at_end parallel : List SystemIndex)
    (parallelTrace : List StageEvent) : List StageEvent :=
  runSequenceEvents should at_start StageEvent.seqAtStart ++
    parallelTrace ++
    runSequenceEvents should before_commands StageEvent.seqBeforeCommands ++
    applyBuffersEvents should parallel ++
    runSequenceEvents should at_end StageEvent.seqAtEnd

/-- Phase number of an event within one outer iteration. -/
def phase : StageEvent → ℕ
  | StageEvent.seqAtStart _ => 0
  | StageEvent.parallelRun _ => 1
  | StageEvent.seqBeforeCommands _ => 2
  | StageEvent.applyCmd _ => 3
  | StageEvent.seqAtEnd _ => 4

/-- Index extracted from a buffer-application event. -/
def applyIdx : StageEvent → Option SystemIndex
  | StageEvent.applyCmd i => some i
  | _ => none

theorem pairwise_phase_of_const {l : List StageEvent} {k : ℕ}
    (h : ∀ e ∈ l, phase e = k) :
    l.Pairwise fun a b => phase a ≤ phase b := by
  induction l with
  | nil => exact List.Pairwise.nil
  | cons e l ih =>
    refine List.Pairwise.cons ?_ (ih fun x hx => h x (List.mem_cons_of_mem _ hx))
    intro b hb
    rw [h e (List.mem_cons_self ..), h b (List.mem_cons_of_mem _ hb)]

theorem phase_runSequenceEvents {should : ℕ → ShouldRun}
    {order : List SystemIndex} {mk : SystemIndex → StageEvent} {k : ℕ}
    (hmk : ∀ i, phase (mk i) = k) :
    ∀ e ∈ runSequenceEvents should order mk, phase e = k := by
  intro e he
  obtain ⟨i, _, rfl⟩ := List.mem_map.mp he
  exact hmk i

theorem phase_applyBuffersEvents {should : ℕ → ShouldRun}
    {parallel : List SystemIndex} :
    ∀ e ∈ applyBuffersEvents should parallel, phase e = 3 := by
  intro e he
  obtain ⟨i, _, rfl⟩ := List.mem_map.mp he
  rfl

theorem pairwise_phase_append {l1 l2 : List StageEvent} {k : ℕ}
    (hb1 : ∀ e ∈ l1, phase e ≤ k) (hb2 : ∀ e ∈ l2, k ≤ phase e)
    (h1 : l1.Pairwise fun a b => phase a ≤ phase b)
    (h2 : l2.Pairwise fun a b => phase a ≤ phase b) :
    (l1 ++ l2).Pairwise fun a b => phase a ≤ phase b :=
  List.pairwise_append.mpr
    ⟨h1, h2, fun a ha b hb => le_trans (hb1 a ha) (hb2 b hb)⟩

theorem filterMap_applyIdx_none {l : List StageEvent}
    (h : ∀ e ∈ l, applyIdx e = none) : l.filterMap applyIdx = [] := by
  induction l with
  | nil => rfl
  | cons e l ih =>
    simp only [List.filterMap_cons, h e (List.mem_cons_self ..)]
    exact ih fun x hx => h x (List.mem_cons_of_mem _ hx)

theorem filterMap_applyIdx_map (l : List SystemIndex) :
    (l.map StageEvent.applyCmd).filterMap applyIdx = l := by
  induction l with
  | nil => rfl
  | cons i l ih =>
    show i :: (l.map StageEvent.applyCmd).filterMap applyIdx = i :: l
    rw [ih]

theorem applyIdx_runSequenceEvents {should : ℕ → ShouldRun}
    {order : List SystemIndex} {mk : SystemIndex → StageEvent}
    (hmk : ∀ i, applyIdx (mk i) = none) :
    (runSequenceEvents should order mk).filterMap applyIdx = [] :=
  filterMap_applyIdx_none (by
    intro e he
    obtain ⟨i, _, rfl⟩ := List.mem_map.mp he
    exact hmk i)

/-- C7: in one outer iteration of the parallel stage executor, phases are
monotone along the trace — every buffer application comes after every
parallel system run of the iteration and after the whole `before_commands`
sequence, and before every `at_end` sequential system — and the buffers
applied are exactly those of the parallel systems whose set's cached
criterion result was `Yes` or `YesAndLoop`, in the stable descriptor order
of the parallel scheduling data. -/
theorem c7_apply_buffers_ordering (should : ℕ → ShouldRun)
    (at_start before_commands at_end parallel : List SystemIndex)
    (parallelTrace : List StageEvent)
    (hpar : ∀ e ∈ parallelTrace, ∃ j, e = StageEvent.parallelRun j) :
    (iterationTrace should at_start before_commands at_end parallel
        parallelTrace).Pairwise (fun a b => phase a ≤ phase b) ∧
    (iterationTrace should at_start before_commands at_end parallel
        parallelTrace).filterMap applyIdx =
      parallel.filter (fun i => shouldRunSet (should i.set)) := by
  have h0 : ∀ e ∈ runSequenceEvents should at_start StageEvent.seqAtStart,
      phase e = 0 := phase_runSequenceEvents fun _ => rfl
  have h1 : ∀ e ∈ parallelTrace, phase e = 1 := by
    intro e he
    obtain ⟨j, rfl⟩ := hpar e he
    rfl
  have h2 : ∀ e ∈ runSequenceEvents should before_commands
      StageEvent.seqBeforeCommands, phase e = 2 :=
    phase_runSequenceEvents fun _ => rfl
  have h3 : ∀ e ∈ applyBuffersEvents should parallel, phase e = 3 :=
    phase_applyBuffersEvents
  have h4 : ∀ e ∈ runSequenceEvents should at_end StageEvent.seqAtEnd,
      phase e = 4 := phase_runSequenceEvents fun _ => rfl
  constructor
  · unfold iterationTrace
    have hbS0 : ∀ e ∈ runSequenceEvents should at_start StageEvent.seqAtStart ++
        parallelTrace, phase e ≤ 1 := by
      intro e he
      rcases List.mem_append.mp he with he | he
      · rw [h0 e he]
        omega
      · rw [h1 e he]
    have hb012 : ∀ e ∈ runSequenceEvents should at_start StageEvent.seqAtStart ++
        parallelTrace ++
        runSequenceEvents should before_commands StageEvent.seqBeforeCommands,
        phase e ≤ 2 := by
      intro e he
      rcases List.mem_append.mp he with he | he
      · exact le_trans (hbS0 e he) (by omega)
      · rw [h2 e he]
    have hp01 : (runSequenceEvents should at_start StageEvent.seqAtStart ++
        parallelTrace).Pairwise fun a b => phase a ≤ phase b :=
      pairwise_phase_append (k := 1) (fun e he => by rw [h0 e he]; omega)
        (fun e he => le_of_eq (h1 e he).symm) (pairwise_phase_of_const h0)
        (pairwise_phase_of_const h1)
    have hp012 : (runSequenceEvents should at_start StageEvent.seqAtStart ++
        parallelTrace ++
        runSequenceEvents should before_commands
          StageEvent.seqBeforeCommands).Pairwise
        fun a b => phase a ≤ phase b :=
      pairwise_phase_append (k := 2) (fun e he => le_trans (hbS0 e he) (by omega))
        (fun e he => le_of_eq (h2 e he).symm) hp01 (pairwise_phase_of_const h2)
    have hp0123 : (runSequenceEvents should at_start StageEvent.seqAtStart ++
        parallelTrace ++
        runSequenceEvents should before_commands StageEvent.seqBeforeCommands ++
        applyBuffersEvents should parallel).Pairwise
        fun a b => phase a ≤ phase b :=
      pairwise_phase_append (k := 3)
        (fun e he => le_trans (hb012 e he) (by omega))
        (fun e he => le_of_eq (h3 e he).symm) hp012 (pairwise_phase_of_const h3)
    refine pairwise_phase_append (k := 4) ?_ (fun e he => le_of_eq (h4 e he).symm)
      hp0123 (pairwise_phase_of_const h4)
    intro e he
    rcases List.mem_append.mp he with he | he
    · exact le_trans (hb012 e he) (by omega)
    · rw [h3 e he]
      omega
  · unfold iterationTrace
    rw [List.filterMap_append, List.filterMap_append, List.filterMap_append,
      List.filterMap_append]
    have e0 : (runSequenceEvents should at_start
        StageEvent.seqAtStart).filterMap applyIdx = [] :=
      applyIdx_runSequenceEvents fun _ => rfl
    have e1 : parallelTrace.filterMap applyIdx = [] :=
      filterMap_applyIdx_none (by
        intro e he
        obtain ⟨j, rfl⟩ := hpar e he
        rfl)
    have e2 : (runSequenceEvents should before_commands
        StageEvent.seqBeforeCommands).filterMap applyIdx = [] :=
      applyIdx_runSequenceEvents fun _ => rfl
    have e3 : (applyBuffersEvents should parallel).filterMap applyIdx =
        parallel.filter fun i => shouldRunSet (should i.set) :=
      filterMap_applyIdx_map _
    have e4 : (runSequenceEvents should at_end
        StageEvent.seqAtEnd).filterMap applyIdx = [] :=
      applyIdx_runSequenceEvents fun _ => rfl
    rw [e0, e1, e2, e3, e4]
    simp only [List.nil_append, List.append_nil]

/-- Criterion results of a two-set stage: set 0 resolved `Yes`, every other
set `No`. -/
def c7Should : ℕ → ShouldRun :=
  fun s => if s = 0 then ShouldRun.Yes else ShouldRun.No

/-- C7, witness on a concrete iteration: two parallel systems from two
sets, of which only set 0 should run. -/
theorem c7_ordering_witness :
    (iterationTrace c7Should [⟨0, 0⟩] [⟨0, 1⟩] [⟨1, 0⟩] [⟨0, 2⟩, ⟨1, 1⟩]
        [StageEvent.parallelRun ⟨0, 2⟩]).Pairwise
      (fun a b => phase a ≤ phase b) ∧
    (iterationTrace c7Should [⟨0, 0⟩] [⟨0, 1⟩] [⟨1, 0⟩] [⟨0, 2⟩, ⟨1, 1⟩]
        [StageEvent.parallelRun ⟨0, 2⟩]).filterMap applyIdx =
      [⟨0, 2⟩, ⟨1, 1⟩].filter (fun i => shouldRunSet (c7Should i.set)) :=
  c7_apply_buffers_ordering c7Should [⟨0, 0⟩] [⟨0, 1⟩] [⟨1, 0⟩]
    [⟨0, 2⟩, ⟨1, 1⟩] [StageEvent.parallelRun ⟨0, 2⟩]
    (by
      intro e he
      rw [List.mem_singleton] at he
      exact ⟨⟨0, 2⟩, he⟩)

end Bevy
